import Mathlib

/-!
Shallow embedding of the maze generator/solver from `src/lib.rs`
(krunker-maze-generator).  The `Maze` structure, `Maze.new`,
`Maze.generate` and `Maze.solve` are translated from the Rust source;
loops become fuel-indexed recursions (the fuel amounts are proved
sufficient below), the `rand` shuffle becomes an explicit stream of
direction orderings (one consulted per loop iteration, exactly as the
code calls `dirs.shuffle` once per pop), `usize::MAX` (the "unknown /
infinite" sentinel of `g_score`) becomes `Option.none`, and
`std::collections::BinaryHeap` (a max-heap on `(Reverse(f), idx)`
pairs, whose popped element is the unique maximal value of that
lexicographic order) becomes a list together with max-extraction.
-/

namespace MazeGen

/-- A movement direction, as in the `dirs` vector of `generate`:
`(1,0,'R')`, `(-1,0,'L')`, `(0,1,'D')`, `(0,-1,'U')`. -/
inductive Dir where
  | R | L | D | U
deriving DecidableEq, Repr

/-- The `(dx, dy)` displacement of a direction (the first two components
of the tuples in the `dirs` vector). -/
def Dir.delta : Dir → Int × Int
  | .R => (1, 0)
  | .L => (-1, 0)
  | .D => (0, 1)
  | .U => (0, -1)

/-- The core maze data, from `struct Maze`:
`width`, `height`, `vert_walls : Vec<Vec<bool>>` (size `height × (width+1)`),
`hor_walls : Vec<Vec<bool>>` (size `(height+1) × width`). -/
structure Maze where
  width : Nat
  height : Nat
  vert_walls : List (List Bool)
  hor_walls : List (List Bool)
deriving DecidableEq, Repr

/-- Bounds-safe 2-d read `rows[y][x]`; all reads performed by the
algorithms are in bounds (Rust would panic otherwise), so the default
value `true` is never observable on well-formed data. -/
def wget (rows : List (List Bool)) (y x : Nat) : Bool :=
  (rows.getD y []).getD x true

/-- Two-dimensional write `rows[y][x] = b` (a no-op out of bounds,
like the unreachable out-of-bounds case). -/
def wset (rows : List (List Bool)) (y x : Nat) (b : Bool) : List (List Bool) :=
  rows.set y ((rows.getD y []).set x b)

/-- Constructor `Maze::new`: `vert_walls = vec![vec![true; width + 1]; height]`,
`hor_walls = vec![vec![true; width]; height + 1]`. -/
def Maze.new (width height : Nat) : Maze :=
  { width := width
    height := height
    vert_walls := List.replicate height (List.replicate (width + 1) true)
    hor_walls := List.replicate (height + 1) (List.replicate width true) }

/-! ### Generation (`Maze::generate`)

State of the carving loop: the walls being mutated, the
`visited : Vec<Vec<bool>>` table and the explicit stack of
`(x, y, dir_idx)` frames.  The random shuffles are supplied by a
stream `rs : Nat → List Dir`: iteration `t` of the `while let` loop
uses the ordering `rs t` for its `dirs` vector — one fresh shuffle per
pop, exactly as `dirs.shuffle(&mut rng())` executes once per loop
iteration in the source. -/

structure GenState where
  vert : List (List Bool)
  hor : List (List Bool)
  visited : List (List Bool)
  stack : List (Nat × Nat × Nat)
deriving DecidableEq, Repr

/-- The `for i in dir_idx..dirs.len()` scan: starting at position `i`
of `dirs`, find the first direction whose target `(nx, ny)` is in
bounds and unvisited.  Returns `(i, dir, nx, ny)` for the position
where the loop `break`s, or `none` if the scan falls through.
`rest` is `dirs.drop i`. -/
def scanDirs (width height : Nat) (visited : List (List Bool)) (x y : Nat) :
    List Dir → Nat → Option (Nat × Dir × Nat × Nat)
  | [], _ => none
  | d :: rest, i =>
    let (dx, dy) := d.delta
    let nx : Int := (x : Int) + dx
    let ny : Int := (y : Int) + dy
    if 0 ≤ nx ∧ nx < (width : Int) ∧ 0 ≤ ny ∧ ny < (height : Int) then
      let nxu := nx.toNat
      let nyu := ny.toNat
      if wget visited nyu nxu = false then
        some (i, d, nxu, nyu)
      else
        scanDirs width height visited x y rest (i + 1)
    else
      scanDirs width height visited x y rest (i + 1)

/-- Wall removal of the `match dir` in `generate`:
`'R' => vert_walls[y][x+1] = false`, `'L' => vert_walls[y][x] = false`,
`'D' => hor_walls[y+1][x] = false`, `'U' => hor_walls[y][x] = false`. -/
def carveWall (s : GenState) (x y : Nat) : Dir → GenState
  | .R => { s with vert := wset s.vert y (x + 1) false }
  | .L => { s with vert := wset s.vert y x false }
  | .D => { s with hor := wset s.hor (y + 1) x false }
  | .U => { s with hor := wset s.hor y x false }

/-- One iteration of the `while let Some((x, y, dir_idx)) = stack.pop()`
loop body, given the shuffled `dirs` ordering for this iteration.
Returns `none` when the stack is empty (loop exit). -/
def genStep (width height : Nat) (dirs : List Dir) (s : GenState) :
    Option GenState :=
  match s.stack with
  | [] => none
  | (x, y, dir_idx) :: rest =>
    match scanDirs width height s.visited x y (dirs.drop dir_idx) dir_idx with
    | none => some { s with stack := rest }
    | some (i, d, nx, ny) =>
      let s' := carveWall s x y d
      some { s' with
             visited := wset s'.visited ny nx true
             stack := (nx, ny, 0) :: (x, y, i + 1) :: rest }

/-- The carving loop, fuel-indexed; iteration `t` consults shuffle
`rs t`.  Returns `none` on fuel exhaustion (proved unreachable for the
fuel used by `Maze.generate`). -/
def genLoop (width height : Nat) (rs : Nat → List Dir) :
    Nat → Nat → GenState → Option GenState
  | 0, _, _ => none
  | fuel + 1, t, s =>
    match genStep width height (rs t) s with
    | none => some s
    | some s' => genLoop width height rs fuel (t + 1) s'

/-- Initial generation state: `visited = vec![vec![false; w]; h]`,
`visited[0][0] = true`, `stack = [(0, 0, 0)]`. -/
def genInit (m : Maze) : GenState :=
  { vert := m.vert_walls
    hor := m.hor_walls
    visited := wset (List.replicate m.height (List.replicate m.width false)) 0 0 true
    stack := [(0, 0, 0)] }

/-- Fuel that provably suffices for the carving loop (the measure
`|stack| + 3·#unvisited` strictly decreases each iteration). -/
def genFuel (m : Maze) : Nat := 3 * (m.width * m.height) + 1

/-- Method `Maze::generate`, as a function of the shuffle stream.  The
fallback state on fuel exhaustion is never reached. -/
def Maze.generate (m : Maze) (rs : Nat → List Dir) : Maze :=
  match genLoop m.width m.height rs (genFuel m) 0 (genInit m) with
  | some s => { m with vert_walls := s.vert, hor_walls := s.hor }
  | none => m

/-! ### Solving (`Maze::solve`)

Cells are linearized as `idx = y * width + x`.  `g_score` is a vector
of `Option Nat` (`none` models the `usize::MAX` "not yet reached"
sentinel; every value the algorithm actually reads is `some`).
`came_from : HashMap<usize, usize>` becomes a vector of `Option Nat`
indexed by cell.  The `BinaryHeap<(Reverse<usize>, usize)>` becomes a
list of `(key, idx)` pairs; popping extracts the element that is
maximal for the Rust ordering (smallest key `f = g + h`, ties by
largest cell index), which is exactly the value `BinaryHeap::pop`
returns. -/

/-- The Manhattan heuristic `h` of `solve`:
`|gx - x| + |gy - y|` for `x = idx % width`, `y = idx / width`,
`gx = width - 1`, `gy = height - 1`. -/
def hManhattan (width height idx : Nat) : Nat :=
  (((width - 1 : Nat) : Int) - (idx % width : Nat)).natAbs +
  (((height - 1 : Nat) : Int) - (idx / width : Nat)).natAbs

/-- Rust's ordering on heap entries `(Reverse(f), idx)`: `a` is ranked
strictly below `b` iff `b.f < a.f`, or the keys are equal and
`a.idx < b.idx`. -/
def entLt (a b : Nat × Nat) : Prop :=
  b.1 < a.1 ∨ (a.1 = b.1 ∧ a.2 < b.2)

instance (a b : Nat × Nat) : Decidable (entLt a b) := by
  unfold entLt; infer_instance

/-- Extract the maximal element (for the heap order) from the open
list, together with the remaining entries — the observable behaviour
of `BinaryHeap::pop`. -/
def popMax : List (Nat × Nat) → Option ((Nat × Nat) × List (Nat × Nat))
  | [] => none
  | e :: rest =>
    match popMax rest with
    | none => some (e, [])
    | some (b, rest') =>
      if entLt e b then some (b, e :: rest') else some (e, rest)

/-- The A* loop state: `g_score`, `came_from`, and the open heap. -/
structure AState where
  g : List (Option Nat)
  came : List (Option Nat)
  open_ : List (Nat × Nat)
deriving DecidableEq, Repr

/-- The neighbor array of `solve` for the popped cell `current`:
entries `(nx, ny, ok)` with
`ok = (cx > 0 && !vert_walls[cy][cx])` for the left move, etc.
`cx.wrapping_sub(1)` is modeled by `cx - 1` on `Nat`; the difference
(`usize` wraparound vs. truncation at 0) is invisible because `ok`
is false whenever the subtraction would wrap. -/
def nbrArray (m : Maze) (cx cy : Nat) : List (Nat × Nat × Bool) :=
  [ (cx - 1, cy, decide (0 < cx) && !(wget m.vert_walls cy cx)),
    (cx + 1, cy, decide (cx + 1 < m.width) && !(wget m.vert_walls cy (cx + 1))),
    (cx, cy - 1, decide (0 < cy) && !(wget m.hor_walls cy cx)),
    (cx, cy + 1, decide (cy + 1 < m.height) && !(wget m.hor_walls (cy + 1) cx)) ]

/-- The body of the `for &(nx, ny, ok) in &neighbors` loop: relax one
neighbor.  `gc` is `g_score[current]`; the source re-reads it on every
iteration of the neighbor loop, but every processed neighbor differs
from `current` in exactly one coordinate, so `g_score[current]` cannot
change during the loop and a single read is faithful. -/
def relaxOne (m : Maze) (current gc : Nat) (s : AState) (nb : Nat × Nat × Bool) :
    AState :=
  if nb.2.2 = false ∨ m.width ≤ nb.1 ∨ m.height ≤ nb.2.1 then s
  else
    let neighbor := nb.2.1 * m.width + nb.1
    let tentative := gc + 1
    match s.g.getD neighbor none with
    | none =>
      { g := s.g.set neighbor (some tentative)
        came := s.came.set neighbor (some current)
        open_ := (tentative + hManhattan m.width m.height neighbor, neighbor) :: s.open_ }
    | some gn =>
      if tentative < gn then
        { g := s.g.set neighbor (some tentative)
          came := s.came.set neighbor (some current)
          open_ := (tentative + hManhattan m.width m.height neighbor, neighbor) :: s.open_ }
      else s

/-- Result of one iteration of the `while let Some((_, current)) = open.pop()`
loop: either the loop is over (heap empty, or `current == goal` hit
`break`), or it continues with the updated state. -/
inductive StepRes where
  | done (s : AState)
  | cont (s : AState)
deriving Repr

/-- One iteration of the A* main loop. -/
def astarStep (m : Maze) (goal : Nat) (s : AState) : StepRes :=
  match popMax s.open_ with
  | none => .done s
  | some ((_, current), rest) =>
    if current = goal then .done { s with open_ := rest }
    else
      let s1 : AState := { s with open_ := rest }
      match s1.g.getD current none with
      | none => .cont s1   -- unreachable: popped cells always have a score
      | some gc =>
        let cx := current % m.width
        let cy := current / m.width
        .cont ((nbrArray m cx cy).foldl (relaxOne m current gc) s1)

/-- The A* main loop, fuel-indexed; `none` on fuel exhaustion (proved
unreachable for the fuel used by `Maze.solve`). -/
def astarLoop (m : Maze) (goal : Nat) : Nat → AState → Option AState
  | 0, _ => none
  | fuel + 1, s =>
    match astarStep m goal s with
    | .done s' => some s'
    | .cont s' => astarLoop m goal fuel s'

/-- Initial solver state: `g_score = vec![usize::MAX; total]` with
`g_score[start] = 0`, empty `came_from`, and
`open = [(Reverse(h(start)), start)]`. -/
def astarInit (m : Maze) : AState :=
  let total := m.width * m.height
  { g := (List.replicate total (none : Option Nat)).set 0 (some 0)
    came := List.replicate total (none : Option Nat)
    open_ := [(hManhattan m.width m.height 0, 0)] }

/-- Fuel that provably suffices for the A* loop. -/
def astarFuel (m : Maze) : Nat := (m.width * m.height) ^ 2 + 2

/-- The `while let Some(&p) = came_from.get(&cur)` reconstruction
loop: push `(cur % width, cur / width)`, step to the predecessor.
Fuel-indexed; `none` on exhaustion (proved unreachable). -/
def reconLoop (width : Nat) (came : List (Option Nat)) :
    Nat → Nat → List (Nat × Nat) → Option (List (Nat × Nat))
  | 0, _, _ => none
  | fuel + 1, cur, path =>
    match came.getD cur none with
    | none => some path
    | some p => reconLoop width came fuel p (path ++ [(cur % width, cur / width)])

/-- Method `Maze::solve`: run the A* loop, then reconstruct, then
`path.push((0, 0)); path.reverse()`. -/
def Maze.solve (m : Maze) : List (Nat × Nat) :=
  let total := m.width * m.height
  let goal := total - 1
  let final := (astarLoop m goal (astarFuel m) (astarInit m)).getD (astarInit m)
  let path := (reconLoop m.width final.came (total + 2) goal []).getD []
  (path ++ [(0, 0)]).reverse

/-! ### Wall-free adjacency, walks and shortest distances

The adjacency relation below is read off the `neighbors` array of
`solve` (the same wall tests the generator's carving establishes): a
step from cell `a` to cell `b` is allowed iff `b` appears in `a`'s
neighbor array with its `ok` flag set and in bounds. -/

/-- Coordinates of a linearized cell index. -/
def coordsOf (width idx : Nat) : Nat × Nat := (idx % width, idx / width)

/-- Wall-free one-step adjacency between linearized cells, exactly the
filter `ok && nx < width && ny < height` that `solve` applies to the
`neighbors` array. -/
def adjIdx (m : Maze) (a b : Nat) : Bool :=
  (nbrArray m (a % m.width) (a / m.width)).any
    (fun t => t.2.2 && decide (t.1 < m.width) && decide (t.2.1 < m.height) &&
      decide (t.2.1 * m.width + t.1 = b))

/-- A walk in the wall-free graph: a nonempty list of cells from `a`
to `b`, each consecutive pair adjacent. -/
def WalkFrom (m : Maze) (a b : Nat) (L : List Nat) : Prop :=
  L.head? = some a ∧ L.getLast? = some b ∧ L.Chain' (fun u v => adjIdx m u v = true)

instance (m : Maze) (a b : Nat) (L : List Nat) : Decidable (WalkFrom m a b L) :=
  inferInstanceAs (Decidable (L.head? = some a ∧ L.getLast? = some b ∧
    L.Chain' (fun u v => adjIdx m u v = true)))

/-- Breadth-first search layers: `reachSet m n` is the boolean mask
(over linearized in-bounds cells) of cells reachable from cell `0` by
a wall-free walk of length at most `n`. -/
def reachSet (m : Maze) : Nat → List Bool
  | 0 => (List.replicate (m.width * m.height) false).set 0 true
  | n + 1 =>
    let prev := reachSet m n
    (List.range (m.width * m.height)).map
      (fun v => prev.getD v false ||
        (List.range (m.width * m.height)).any (fun u => prev.getD u false && adjIdx m u v))

/-- Breadth-first reachability: `reachB m n v` iff some walk of length
at most `n` leads from cell `0` to cell `v`.  This is the independent
BFS computation of shortest distances over the same adjacency. -/
def reachB (m : Maze) (n v : Nat) : Bool :=
  (reachSet m n).getD v false

/-- Cell `v` is reachable from the start cell `(0,0)`. -/
def Reachable (m : Maze) (v : Nat) : Prop :=
  ∃ L, WalkFrom m 0 v L

/-- The BFS shortest-path distance from cell `0` to `v` (meaningful
when `v` is reachable; 0 otherwise). -/
def distN (m : Maze) (v : Nat) : Nat :=
  match (List.range (m.width * m.height + 1)).find? (fun n => reachB m n v) with
  | some n => n
  | none => 0

/-- Number of removed (`false`) wall entries of a maze. -/
def removedWalls (m : Maze) : Nat :=
  (m.vert_walls.map (fun r => r.countP (· = false))).sum +
  (m.hor_walls.map (fun r => r.countP (· = false))).sum

/-! ### Helper lemmas about 2-d tables -/

theorem getD_set_ne {α : Type} (l : List α) {i j : Nat} (hij : i ≠ j) (a d : α) :
    (l.set i a).getD j d = l.getD j d := by
  simp [List.getD_eq_getElem?_getD, List.getElem?_set_ne hij]

theorem getD_set_self {α : Type} (l : List α) {i : Nat} (a d : α) (h : i < l.length) :
    (l.set i a).getD i d = a := by
  simp [List.getD_eq_getElem?_getD, List.getElem?_set_self, h]

theorem getD_replicate {α : Type} {n i : Nat} (a d : α) (h : i < n) :
    (List.replicate n a).getD i d = a := by
  simp [List.getD_eq_getElem?_getD, List.getElem?_replicate, h]

theorem wget_wset_ne {rows : List (List Bool)} {y x y' x' : Nat} (b : Bool)
    (h : y ≠ y' ∨ x ≠ x') : wget (wset rows y x b) y' x' = wget rows y' x' := by
  unfold wget wset
  rcases h with h | h
  · rw [getD_set_ne _ h]
  · by_cases hy : y = y'
    · subst hy
      by_cases hl : y < rows.length
      · rw [getD_set_self _ _ _ hl, getD_set_ne _ h]
      · rw [List.set_eq_of_length_le (Nat.le_of_not_lt hl)]
    · rw [getD_set_ne _ hy]

theorem wget_wset_self {rows : List (List Bool)} {y x : Nat} (b : Bool)
    (hy : y < rows.length) (hx : x < (rows.getD y []).length) :
    wget (wset rows y x b) y x = b := by
  unfold wget wset
  rw [getD_set_self _ _ _ hy, getD_set_self _ _ _ hx]

theorem wset_length (rows : List (List Bool)) (y x : Nat) (b : Bool) :
    (wset rows y x b).length = rows.length := by
  simp [wset]

theorem wset_row_length (rows : List (List Bool)) (y x : Nat) (b : Bool) (y' : Nat) :
    ((wset rows y x b).getD y' []).length = ((rows.getD y' []).length) := by
  unfold wset
  by_cases hy : y = y'
  · subst hy
    by_cases hl : y < rows.length
    · rw [getD_set_self _ _ _ hl, List.length_set]
    · rw [List.set_eq_of_length_le (Nat.le_of_not_lt hl)]
  · rw [getD_set_ne _ hy]

/-! ### Properties of the carving scan -/

/-- What a successful `for i in dir_idx..` scan guarantees: the found
neighbor is in bounds and unvisited, the found position is at or after
the start position, and the carved direction links `(x, y)` to
`(nx, ny)` as an axis-aligned unit move. -/
theorem scanDirs_spec {w h : Nat} {vis : List (List Bool)} {x y : Nat} :
    ∀ {ds : List Dir} {i j : Nat} {d : Dir} {nx ny : Nat},
    scanDirs w h vis x y ds i = some (j, d, nx, ny) →
    nx < w ∧ ny < h ∧ wget vis ny nx = false ∧ i ≤ j ∧
    ((d = .R ∧ nx = x + 1 ∧ ny = y) ∨ (d = .L ∧ x = nx + 1 ∧ ny = y) ∨
     (d = .D ∧ ny = y + 1 ∧ nx = x) ∨ (d = .U ∧ y = ny + 1 ∧ nx = x)) := by
  intro ds
  induction ds with
  | nil => intro i j d nx ny hscan; simp [scanDirs] at hscan
  | cons d0 rest ih =>
    intro i j d nx ny hscan
    cases d0 <;>
      · simp only [scanDirs, Dir.delta] at hscan
        split at hscan
        · rename_i hbnd
          split at hscan
          · rename_i hvis
            simp only [Option.some.injEq, Prod.mk.injEq] at hscan
            obtain ⟨hj, hd, hnx, hny⟩ := hscan
            subst hj hd
            refine ⟨by omega, by omega, ?_, Nat.le_refl _, ?_⟩
            · rw [← hnx, ← hny]
              exact hvis
            · first
                | exact Or.inl ⟨rfl, by omega, by omega⟩
                | exact Or.inr (Or.inl ⟨rfl, by omega, by omega⟩)
                | exact Or.inr (Or.inr (Or.inl ⟨rfl, by omega, by omega⟩))
                | exact Or.inr (Or.inr (Or.inr ⟨rfl, by omega, by omega⟩))
          · obtain ⟨c1, c2, c3, c4, c5⟩ := ih hscan
            exact ⟨c1, c2, c3, by omega, c5⟩
        · obtain ⟨c1, c2, c3, c4, c5⟩ := ih hscan
          exact ⟨c1, c2, c3, by omega, c5⟩

/-! ### Invariants of the generation loop -/

/-- Dimensions of the tables in a generation state match the
`vec![vec![..]]` allocations of `new` and `generate`. -/
def GenDims (w h : Nat) (s : GenState) : Prop :=
  s.visited.length = h ∧ (∀ y, y < h → (s.visited.getD y []).length = w) ∧
  s.vert.length = h ∧ (∀ y, y < h → (s.vert.getD y []).length = w + 1) ∧
  s.hor.length = h + 1 ∧ (∀ y, y < h + 1 → (s.hor.getD y []).length = w)

/-- All stack frames hold in-bounds cells. -/
def StackBnd (w h : Nat) (s : GenState) : Prop :=
  ∀ p ∈ s.stack, p.1 < w ∧ p.2.1 < h

/-- All boundary walls are present: vertical columns `0` and `width`,
horizontal rows `0` and `height`. -/
def BoundaryTrue (w h : Nat) (vert hor : List (List Bool)) : Prop :=
  (∀ y, y < h → wget vert y 0 = true ∧ wget vert y w = true) ∧
  (∀ x, x < w → wget hor 0 x = true ∧ wget hor h x = true)

/-- One generation step preserves dimensions, stack bounds and the
boundary walls (a carve never touches a boundary entry, because the
carved neighbor is in bounds). -/
theorem genStep_preserves {w h : Nat} {dirs : List Dir} {s s' : GenState}
    (hd : GenDims w h s) (hb : StackBnd w h s)
    (hstep : genStep w h dirs s = some s') :
    GenDims w h s' ∧ StackBnd w h s' ∧
      (BoundaryTrue w h s.vert s.hor → BoundaryTrue w h s'.vert s'.hor) := by
  obtain ⟨sv, sh, svis, sst⟩ := s
  obtain ⟨hvl, hvr, hel, her, hhl, hhr⟩ := hd
  cases sst with
  | nil => simp [genStep] at hstep
  | cons fr rest =>
    obtain ⟨x, y, di⟩ := fr
    simp only [genStep] at hstep
    have hfr : x < w ∧ y < h := hb (x, y, di) (List.mem_cons_self _ _)
    have hrest : ∀ p ∈ rest, p.1 < w ∧ p.2.1 < h :=
      fun p hp => hb p (List.mem_cons_of_mem _ hp)
    cases hscan : scanDirs w h svis x y (dirs.drop di) di with
    | none =>
      rw [hscan] at hstep
      simp only [Option.some.injEq] at hstep
      subst hstep
      exact ⟨⟨hvl, hvr, hel, her, hhl, hhr⟩, fun p hp => hrest p hp, fun hb0 => hb0⟩
    | some found =>
      obtain ⟨i, d, nx, ny⟩ := found
      rw [hscan] at hstep
      simp only [Option.some.injEq] at hstep
      obtain ⟨hnx, hny, hunvis, hij, hdir⟩ := scanDirs_spec hscan
      subst hstep
      have hstk : ∀ p ∈ [(nx, ny, 0), (x, y, i + 1)] ++ rest, p.1 < w ∧ p.2.1 < h := by
        intro p hp
        rcases List.mem_append.mp hp with hp | hp
        · rcases List.mem_cons.mp hp with rfl | hp
          · exact ⟨hnx, hny⟩
          · rcases List.mem_cons.mp hp with rfl | hp
            · exact hfr
            · cases hp
        · exact hrest p hp
      rcases hdir with ⟨rfl, e1, e2⟩ | ⟨rfl, e1, e2⟩ | ⟨rfl, e1, e2⟩ | ⟨rfl, e1, e2⟩ <;>
        simp only [carveWall] <;>
        refine ⟨?_, fun p hp => hstk p (by simpa using hp), ?_⟩
      · exact ⟨by rw [wset_length]; exact hvl,
          fun y' hy' => by rw [wset_row_length]; exact hvr y' hy',
          by rw [wset_length]; exact hel,
          fun y' hy' => by rw [wset_row_length]; exact her y' hy', hhl, hhr⟩
      · rintro ⟨bv, bh⟩
        refine ⟨fun y' hy' => ⟨?_, ?_⟩, bh⟩
        · rw [wget_wset_ne _ (Or.inr (by omega))]; exact (bv y' hy').1
        · rw [wget_wset_ne _ (Or.inr (by omega))]; exact (bv y' hy').2
      · exact ⟨by rw [wset_length]; exact hvl,
          fun y' hy' => by rw [wset_row_length]; exact hvr y' hy',
          by rw [wset_length]; exact hel,
          fun y' hy' => by rw [wset_row_length]; exact her y' hy', hhl, hhr⟩
      · rintro ⟨bv, bh⟩
        refine ⟨fun y' hy' => ⟨?_, ?_⟩, bh⟩
        · rw [wget_wset_ne _ (Or.inr (by omega))]; exact (bv y' hy').1
        · rw [wget_wset_ne _ (Or.inr (by omega))]; exact (bv y' hy').2
      · exact ⟨by rw [wset_length]; exact hvl,
          fun y' hy' => by rw [wset_row_length]; exact hvr y' hy', hel, her,
          by rw [wset_length]; exact hhl,
          fun y' hy' => by rw [wset_row_length]; exact hhr y' hy'⟩
      · rintro ⟨bv, bh⟩
        refine ⟨bv, fun x' hx' => ⟨?_, ?_⟩⟩
        · rw [wget_wset_ne _ (Or.inl (by omega))]; exact (bh x' hx').1
        · rw [wget_wset_ne _ (Or.inl (by omega))]; exact (bh x' hx').2
      · exact ⟨by rw [wset_length]; exact hvl,
          fun y' hy' => by rw [wset_row_length]; exact hvr y' hy', hel, her,
          by rw [wset_length]; exact hhl,
          fun y' hy' => by rw [wset_row_length]; exact hhr y' hy'⟩
      · rintro ⟨bv, bh⟩
        refine ⟨bv, fun x' hx' => ⟨?_, ?_⟩⟩
        · rw [wget_wset_ne _ (Or.inl (by omega))]; exact (bh x' hx').1
        · rw [wget_wset_ne _ (Or.inl (by omega))]; exact (bh x' hx').2

/-- Number of in-bounds cells not yet visited. -/
def unvisCard (w h : Nat) (vis : List (List Bool)) : Nat :=
  ((Finset.range w ×ˢ Finset.range h).filter (fun p => wget vis p.2 p.1 = false)).card

/-- Each loop iteration strictly decreases `|stack| + 3·#unvisited`:
a fruitless scan drops a frame, a carve adds a frame but marks a fresh
cell visited. -/
theorem genStep_measure {w h : Nat} {dirs : List Dir} {s s' : GenState}
    (hd : GenDims w h s) (hstep : genStep w h dirs s = some s') :
    s'.stack.length + 3 * unvisCard w h s'.visited <
      s.stack.length + 3 * unvisCard w h s.visited := by
  obtain ⟨sv, sh, svis, sst⟩ := s
  obtain ⟨hvl, hvr, _, _, _, _⟩ := hd
  cases sst with
  | nil => simp [genStep] at hstep
  | cons fr rest =>
    obtain ⟨x, y, di⟩ := fr
    simp only [genStep] at hstep
    cases hscan : scanDirs w h svis x y (dirs.drop di) di with
    | none =>
      rw [hscan] at hstep
      simp only [Option.some.injEq] at hstep
      subst hstep
      simp only [List.length_cons]
      omega
    | some found =>
      obtain ⟨i, d, nx, ny⟩ := found
      rw [hscan] at hstep
      simp only [Option.some.injEq] at hstep
      obtain ⟨hnx, hny, hunvis, -, -⟩ := scanDirs_spec hscan
      subst hstep
      have hvis' : ∀ (dd : Dir), (carveWall ⟨sv, sh, svis, (x, y, di) :: rest⟩ x y dd).visited
          = svis := by intro dd; cases dd <;> rfl
      have hmem : (nx, ny) ∈ (Finset.range w ×ˢ Finset.range h).filter
          (fun p => wget svis p.2 p.1 = false) := by
        simp only [Finset.mem_filter, Finset.mem_product, Finset.mem_range]
        exact ⟨⟨hnx, hny⟩, hunvis⟩
      have hcard : unvisCard w h (wset svis ny nx true) =
          unvisCard w h svis - 1 := by
        unfold unvisCard
        have : (Finset.range w ×ˢ Finset.range h).filter
            (fun p => wget (wset svis ny nx true) p.2 p.1 = false) =
            ((Finset.range w ×ˢ Finset.range h).filter
              (fun p => wget svis p.2 p.1 = false)).erase (nx, ny) := by
          ext p
          simp only [Finset.mem_filter, Finset.mem_erase, Finset.mem_product,
            Finset.mem_range]
          have hl1 : svis.length = h := hvl
          have hl2 : (svis.getD ny []).length = w := hvr ny hny
          constructor
          · rintro ⟨⟨h1, h2⟩, h3⟩
            by_cases hp : p = (nx, ny)
            · subst hp
              rw [wget_wset_self true (by omega) (by omega)] at h3
              exact absurd h3 (by simp)
            · have hne : ny ≠ p.2 ∨ nx ≠ p.1 := by
                by_cases hx1 : p.1 = nx
                · left; intro hy1; exact hp (Prod.ext hx1 hy1.symm)
                · right; exact fun hh => hx1 hh.symm
              rw [wget_wset_ne true hne] at h3
              exact ⟨hp, ⟨h1, h2⟩, h3⟩
          · rintro ⟨hp, ⟨h1, h2⟩, h3⟩
            have hne : ny ≠ p.2 ∨ nx ≠ p.1 := by
              by_cases hx1 : p.1 = nx
              · left; intro hy1; exact hp (Prod.ext hx1 hy1.symm)
              · right; exact fun hh => hx1 hh.symm
            rw [wget_wset_ne true hne]
            exact ⟨⟨h1, h2⟩, h3⟩
        rw [this, Finset.card_erase_of_mem hmem]
      have hpos : 1 ≤ unvisCard w h svis := by
        have := Finset.card_pos.mpr ⟨(nx, ny), hmem⟩
        exact this
      have hvv := hvis' d
      simp only [hvv, List.length_cons, hcard]
      omega

/-- The generation loop terminates within the measure's fuel. -/
theorem genLoop_some {w h : Nat} {rs : Nat → List Dir} :
    ∀ (fuel t : Nat) (s : GenState), GenDims w h s → StackBnd w h s →
    s.stack.length + 3 * unvisCard w h s.visited < fuel →
    ∃ s2, genLoop w h rs fuel t s = some s2 ∧ GenDims w h s2 ∧ StackBnd w h s2 ∧
      (BoundaryTrue w h s.vert s.hor → BoundaryTrue w h s2.vert s2.hor) := by
  intro fuel
  induction fuel with
  | zero => intro t s _ _ hm; omega
  | succ f ih =>
    intro t s hd hb hm
    rw [genLoop]
    cases hstep : genStep w h (rs t) s with
    | none => exact ⟨s, rfl, hd, hb, fun hb0 => hb0⟩
    | some s' =>
      obtain ⟨hd', hb', hbd'⟩ := genStep_preserves hd hb hstep
      have hm' := genStep_measure hd hstep
      obtain ⟨s2, hs2, d2, b2, bd2⟩ := ih (t + 1) s' hd' hb' (by omega)
      exact ⟨s2, hs2, d2, b2, fun h0 => bd2 (hbd' h0)⟩

/-- Dimensions of the initial generation state over a fresh grid. -/
theorem genInit_dims (w h : Nat) : GenDims w h (genInit (Maze.new w h)) := by
  refine ⟨?_, ?_, ?_, ?_, ?_, ?_⟩
  · simp [genInit, Maze.new, wset_length]
  · intro y hy
    simp only [genInit, Maze.new]
    rw [wset_row_length, getD_replicate _ _ hy, List.length_replicate]
  · simp [genInit, Maze.new]
  · intro y hy
    simp only [genInit, Maze.new]
    rw [getD_replicate _ _ hy, List.length_replicate]
  · simp [genInit, Maze.new]
  · intro y hy
    simp only [genInit, Maze.new]
    rw [getD_replicate _ _ hy, List.length_replicate]

theorem genInit_stackbnd {w h : Nat} (hw : 0 < w) (hh : 0 < h) (m : Maze) :
    StackBnd w h (genInit m) := by
  intro p hp
  simp only [genInit, List.mem_singleton] at hp
  subst hp
  exact ⟨hw, hh⟩

/-- A fresh grid has all boundary walls present. -/
theorem new_boundary (w h : Nat) :
    BoundaryTrue w h (Maze.new w h).vert_walls (Maze.new w h).hor_walls := by
  constructor
  · intro y hy
    simp only [Maze.new, wget]
    rw [getD_replicate _ _ hy]
    constructor <;> rw [getD_replicate] <;> omega
  · intro x hx
    simp only [Maze.new, wget]
    constructor <;> rw [getD_replicate, getD_replicate] <;> omega

/-- In the initial state only `(0,0)` is visited, so at least one cell
is accounted for by the measure. -/
theorem genInit_measure {w h : Nat} (hw : 0 < w) (hh : 0 < h) :
    (genInit (Maze.new w h)).stack.length +
      3 * unvisCard w h (genInit (Maze.new w h)).visited < genFuel (Maze.new w h) := by
  have hvis00 : wget (genInit (Maze.new w h)).visited 0 0 = true := by
    simp only [genInit, Maze.new]
    rw [wget_wset_self _ (by simpa using hh)
      (by rw [getD_replicate _ _ hh]; simpa using hw)]
  have hsub : (Finset.range w ×ˢ Finset.range h).filter
      (fun p => wget (genInit (Maze.new w h)).visited p.2 p.1 = false) ⊆
      (Finset.range w ×ˢ Finset.range h).erase (0, 0) := by
    intro p hp
    simp only [Finset.mem_filter] at hp
    rw [Finset.mem_erase]
    refine ⟨?_, hp.1⟩
    intro hp0
    subst hp0
    rw [hvis00] at hp
    simp at hp
  have hcard : unvisCard w h (genInit (Maze.new w h)).visited ≤ w * h - 1 := by
    have h1 := Finset.card_le_card hsub
    rw [Finset.card_erase_of_mem (by simp [Finset.mem_product]; omega)] at h1
    simpa [unvisCard, Finset.card_product] using h1
  have hs : (genInit (Maze.new w h)).stack.length = 1 := rfl
  have hf : genFuel (Maze.new w h) = 3 * (w * h) + 1 := rfl
  rw [hs, hf]
  have hwh : 0 < w * h := Nat.mul_pos hw hh
  omega

/-- Complete generation run over a fresh grid: the loop finishes and
all boundary walls survive. -/
theorem generate_run {w h : Nat} (rs : Nat → List Dir) (hw : 0 < w) (hh : 0 < h) :
    ∃ s2, genLoop w h rs (genFuel (Maze.new w h)) 0 (genInit (Maze.new w h)) = some s2 ∧
      GenDims w h s2 ∧ StackBnd w h s2 ∧ BoundaryTrue w h s2.vert s2.hor := by
  obtain ⟨s2, hs2, d2, b2, bd2⟩ := genLoop_some (genFuel (Maze.new w h)) 0
    (genInit (Maze.new w h)) (genInit_dims w h) (genInit_stackbnd hw hh _)
    (genInit_measure hw hh)
  exact ⟨s2, hs2, d2, b2, bd2 (new_boundary w h)⟩

/-- On a 1×1 grid every direction scan falls through: all four moves
leave the single cell. -/
theorem scanDirs_1x1 (vis : List (List Bool)) :
    ∀ (ds : List Dir) (i : Nat), scanDirs 1 1 vis 0 0 ds i = none := by
  intro ds
  induction ds with
  | nil => intro i; rfl
  | cons d rest ih =>
    intro i
    cases d <;> simp [scanDirs, Dir.delta] <;> exact ih (i + 1)

/-- On a 1×1 grid the generation loop never changes a wall. -/
theorem genLoop_1x1_walls {rs : Nat → List Dir} :
    ∀ (fuel t : Nat) (s s2 : GenState), StackBnd 1 1 s →
    genLoop 1 1 rs fuel t s = some s2 → s2.vert = s.vert ∧ s2.hor = s.hor := by
  intro fuel
  induction fuel with
  | zero => intro t s s2 _ hrun; simp [genLoop] at hrun
  | succ f ih =>
    intro t s s2 hb hrun
    obtain ⟨sv, sh, svis, sst⟩ := s
    rw [genLoop] at hrun
    cases sst with
    | nil =>
      simp only [genStep, Option.some.injEq] at hrun
      subst hrun
      exact ⟨rfl, rfl⟩
    | cons fr rest =>
      obtain ⟨x, y, di⟩ := fr
      have hfr : x < 1 ∧ y < 1 := hb (x, y, di) (List.mem_cons_self _ _)
      have hx : x = 0 := by omega
      have hy : y = 0 := by omega
      subst hx hy
      simp only [genStep, scanDirs_1x1] at hrun
      exact ih (t + 1) ⟨sv, sh, svis, rest⟩ s2
        (fun p hp => hb p (List.mem_cons_of_mem _ (show p ∈ rest from hp))) hrun

/-- Generation of a 1×1 maze leaves the grid untouched. -/
theorem generate_1x1 (rs : Nat → List Dir) :
    (Maze.new 1 1).generate rs = Maze.new 1 1 := by
  cases hrun : genLoop (Maze.new 1 1).width (Maze.new 1 1).height rs
      (genFuel (Maze.new 1 1)) 0 (genInit (Maze.new 1 1)) with
  | none =>
    unfold Maze.generate
    rw [hrun]
  | some s2 =>
    obtain ⟨hv, hh⟩ := genLoop_1x1_walls (genFuel (Maze.new 1 1)) 0
      (genInit (Maze.new 1 1)) s2 (genInit_stackbnd Nat.one_pos Nat.one_pos _) hrun
    unfold Maze.generate
    rw [hrun]
    have hv' : s2.vert = (Maze.new 1 1).vert_walls := hv
    have hh' : s2.hor = (Maze.new 1 1).hor_walls := hh
    show ({ width := (Maze.new 1 1).width, height := (Maze.new 1 1).height,
            vert_walls := s2.vert, hor_walls := s2.hor } : Maze) = Maze.new 1 1
    rw [hv', hh']

/-- Boundary walls survive a complete generation run. -/
theorem generate_boundary {w h : Nat} (rs : Nat → List Dir) (hw : 0 < w) (hh : 0 < h) :
    BoundaryTrue w h ((Maze.new w h).generate rs).vert_walls
      ((Maze.new w h).generate rs).hor_walls := by
  obtain ⟨s2, hs2, _, _, hbd⟩ := generate_run rs hw hh
  have hs2' : genLoop (Maze.new w h).width (Maze.new w h).height rs
      (genFuel (Maze.new w h)) 0 (genInit (Maze.new w h)) = some s2 := hs2
  unfold Maze.generate
  rw [hs2']
  exact hbd

/-! ### Facts about adjacency, walks and breadth-first reachability -/

theorem encode_mod {w nx ny : Nat} (hnx : nx < w) : (ny * w + nx) % w = nx := by
  rw [Nat.mul_comm, Nat.mul_add_mod, Nat.mod_eq_of_lt hnx]

theorem encode_div {w nx ny : Nat} (hnx : nx < w) : (ny * w + nx) / w = ny := by
  rw [Nat.add_comm, Nat.mul_comm,
    Nat.add_mul_div_left _ _ (Nat.lt_of_le_of_lt (Nat.zero_le _) hnx),
    Nat.div_eq_of_lt hnx, Nat.zero_add]

/-- A wall-free step stays in bounds and moves by one in exactly one
coordinate. -/
theorem adjIdx_step {m : Maze} {a b : Nat} (h : adjIdx m a b = true) :
    b < m.width * m.height ∧ b % m.width < m.width ∧ b / m.width < m.height ∧
    ((b % m.width + 1 = a % m.width ∧ b / m.width = a / m.width) ∨
     (a % m.width + 1 = b % m.width ∧ b / m.width = a / m.width) ∨
     (b / m.width + 1 = a / m.width ∧ b % m.width = a % m.width) ∨
     (a / m.width + 1 = b / m.width ∧ b % m.width = a % m.width)) := by
  have hbound : ∀ {nx ny : Nat}, nx < m.width → ny < m.height →
      ny * m.width + nx < m.width * m.height := by
    intro nx ny h1 h2
    calc ny * m.width + nx < ny * m.width + m.width := by omega
    _ = (ny + 1) * m.width := by ring
    _ ≤ m.height * m.width := Nat.mul_le_mul_right _ (by omega)
    _ = m.width * m.height := Nat.mul_comm _ _
  simp only [adjIdx, nbrArray, List.any_eq_true, List.mem_cons, List.not_mem_nil,
    or_false, Bool.and_eq_true, decide_eq_true_eq] at h
  obtain ⟨t, ht, ⟨⟨hok, h1⟩, h2⟩, h3⟩ := h
  rcases ht with rfl | rfl | rfl | rfl <;>
    dsimp only at hok h1 h2 h3
  · simp only [Bool.and_eq_true, decide_eq_true_eq] at hok
    subst h3
    rw [encode_mod h1, encode_div h1]
    exact ⟨hbound h1 h2, h1, h2, Or.inl ⟨by omega, rfl⟩⟩
  · simp only [Bool.and_eq_true, decide_eq_true_eq] at hok
    subst h3
    rw [encode_mod h1, encode_div h1]
    exact ⟨hbound h1 h2, h1, h2, Or.inr (Or.inl ⟨by omega, rfl⟩)⟩
  · simp only [Bool.and_eq_true, decide_eq_true_eq] at hok
    subst h3
    rw [encode_mod h1, encode_div h1]
    exact ⟨hbound h1 h2, h1, h2, Or.inr (Or.inr (Or.inl ⟨by omega, rfl⟩))⟩
  · simp only [Bool.and_eq_true, decide_eq_true_eq] at hok
    subst h3
    rw [encode_mod h1, encode_div h1]
    exact ⟨hbound h1 h2, h1, h2, Or.inr (Or.inr (Or.inr ⟨by omega, rfl⟩))⟩

/-- Manhattan distance between two linearized cells. -/
def mdist (w a b : Nat) : Nat :=
  (((a % w : Nat) : Int) - ((b % w : Nat) : Int)).natAbs +
  (((a / w : Nat) : Int) - ((b / w : Nat) : Int)).natAbs

/-- One wall-free step changes the Manhattan distance to any target by
at most one. -/
theorem adjIdx_mdist {m : Maze} {a b : Nat} (h : adjIdx m a b = true) (t : Nat) :
    mdist m.width a t ≤ mdist m.width b t + 1 := by
  obtain ⟨-, -, -, hc⟩ := adjIdx_step h
  unfold mdist
  rcases hc with ⟨e1, e2⟩ | ⟨e1, e2⟩ | ⟨e1, e2⟩ | ⟨e1, e2⟩ <;> rw [← e2] <;> omega

/-- The goal cell `total - 1` sits at coordinates `(w-1, h-1)`. -/
theorem goal_coords {w h : Nat} (hw : 0 < w) (hh : 0 < h) :
    (w * h - 1) % w = w - 1 ∧ (w * h - 1) / w = h - 1 := by
  have e : w * h - 1 = (h - 1) * w + (w - 1) := by
    have : w * h = w * (h - 1) + w := by
      rw [← Nat.mul_succ]
      congr 1
      omega
    rw [this, Nat.mul_comm]
    omega
  rw [e, encode_mod (by omega), encode_div (by omega)]
  exact ⟨rfl, rfl⟩

/-- The solver's heuristic is the Manhattan distance to the goal. -/
theorem hManhattan_eq_mdist {m : Maze} (hw : 0 < m.width) (hh : 0 < m.height)
    (idx : Nat) :
    hManhattan m.width m.height idx = mdist m.width idx (m.width * m.height - 1) := by
  obtain ⟨e1, e2⟩ := goal_coords hw hh
  unfold hManhattan mdist
  rw [e1, e2]
  omega

theorem getD_map_range {α : Type} (f : Nat → α) (N v : Nat) (d : α) :
    ((List.range N).map f).getD v d = if v < N then f v else d := by
  by_cases hv : v < N
  · rw [List.getD_eq_getElem?_getD, List.getElem?_map, List.getElem?_range hv]
    simp [hv]
  · rw [List.getD_eq_getElem?_getD, List.getElem?_eq_none (by simpa using Nat.le_of_not_lt hv)]
    simp [hv]

theorem reachB_zero {m : Maze} {v : Nat} (hv : v < m.width * m.height) :
    reachB m 0 v = decide (v = 0) := by
  unfold reachB reachSet
  by_cases h0 : v = 0
  · subst h0
    rw [getD_set_self _ _ _ (by simpa using hv)]
    simp
  · rw [getD_set_ne _ (fun e => h0 e.symm), getD_replicate _ _ hv]
    simp [h0]

theorem reachB_succ {m : Maze} {v : Nat} (n : Nat) (hv : v < m.width * m.height) :
    reachB m (n + 1) v = (reachB m n v ||
      (List.range (m.width * m.height)).any (fun u => reachB m n u && adjIdx m u v)) := by
  conv_lhs => rw [reachB, reachSet]
  rw [getD_map_range]
  simp [hv, reachB]

theorem reachB_oob {m : Maze} {v : Nat} (n : Nat) (hv : ¬ v < m.width * m.height) :
    reachB m n v = false := by
  cases n with
  | zero =>
    unfold reachB reachSet
    rw [List.getD_eq_getElem?_getD, List.getElem?_eq_none]
    · rfl
    · simpa using Nat.le_of_not_lt hv
  | succ n =>
    unfold reachB reachSet
    rw [getD_map_range]
    simp [hv]

theorem reachB_mono {m : Maze} {v n : Nat} (h : reachB m n v = true) :
    reachB m (n + 1) v = true := by
  by_cases hv : v < m.width * m.height
  · rw [reachB_succ n hv, h, Bool.true_or]
  · rw [reachB_oob n hv] at h
    cases h

theorem reachB_mono_le {m : Maze} {v n n' : Nat} (hle : n ≤ n')
    (h : reachB m n v = true) : reachB m n' v = true := by
  induction n' with
  | zero => exact (Nat.le_zero.mp hle) ▸ h
  | succ k ih =>
    rcases Nat.lt_or_ge n (k + 1) with hk | hk
    · exact reachB_mono (ih (by omega))
    · exact (Nat.le_antisymm hle hk) ▸ h

/-- Extending a walk by one wall-free step. -/
theorem WalkFrom.snoc {m : Maze} {a u v : Nat} {L : List Nat}
    (hw : WalkFrom m a u L) (hadj : adjIdx m u v = true) :
    WalkFrom m a v (L ++ [v]) := by
  obtain ⟨hh, hl, hc⟩ := hw
  have hne : L ≠ [] := by intro e; rw [e] at hh; cases hh
  refine ⟨?_, List.getLast?_concat L, ?_⟩
  · rw [List.head?_append_of_ne_nil L hne]; exact hh
  · rw [List.chain'_append]
    exact ⟨hc, List.chain'_singleton v, by
      intro x hx y hy
      simp only [List.head?_cons, Option.mem_def, Option.some.injEq] at hy
      rw [hl] at hx
      simp only [Option.mem_def, Option.some.injEq] at hx
      subst hx; subst hy; exact hadj⟩

/-- Every cell of a walk that starts in bounds stays in bounds. -/
theorem walk_cells_lt {m : Maze} {b : Nat} :
    ∀ {L : List Nat} {a : Nat}, WalkFrom m a b L → a < m.width * m.height →
    ∀ c ∈ L, c < m.width * m.height := by
  intro L
  induction L with
  | nil => intro a hw _ c hc; cases hc
  | cons x rest ih =>
    intro a hw ha c hc
    obtain ⟨hh, hl, hc'⟩ := hw
    simp only [List.head?_cons, Option.some.injEq] at hh
    subst hh
    rcases List.mem_cons.mp hc with rfl | hc
    · exact ha
    · cases rest with
      | nil => cases hc
      | cons y rest' =>
        obtain ⟨hadj, hch⟩ := List.chain'_cons.mp hc'
        have hy : y < m.width * m.height := (adjIdx_step hadj).1
        rw [List.getLast?_cons_cons] at hl
        exact ih ⟨rfl, hl, hch⟩ hy c hc

/-- A walk is at least as long as the Manhattan distance between its
endpoints (each step moves one unit). -/
theorem walk_mdist {m : Maze} {a b : Nat} :
    ∀ {L : List Nat}, WalkFrom m a b L → mdist m.width a b ≤ L.length - 1 := by
  intro L
  induction L generalizing a with
  | nil => intro hw; cases hw.1
  | cons x rest ih =>
    intro hw
    obtain ⟨hh, hl, hc⟩ := hw
    simp only [List.head?_cons, Option.some.injEq] at hh
    subst hh
    cases rest with
    | nil =>
      simp only [List.getLast?_singleton, Option.some.injEq] at hl
      subst hl
      simp [mdist]
    | cons y rest' =>
      obtain ⟨hadj, hch⟩ := List.chain'_cons.mp hc
      have hy := ih (a := y) ⟨rfl, by rw [← hl, List.getLast?_cons_cons], hch⟩
      have htri := adjIdx_mdist hadj b
      simp only [List.length_cons] at hy ⊢
      omega

/-- Walks witness breadth-first reachability. -/
theorem reachB_of_walk {m : Maze} (h0 : 0 < m.width * m.height) :
    ∀ (n : Nat) {L : List Nat} {v : Nat}, WalkFrom m 0 v L → L.length ≤ n + 1 →
    reachB m n v = true := by
  intro n
  induction n with
  | zero =>
    intro L v hw hlen
    obtain ⟨hh, hl, -⟩ := hw
    cases L with
    | nil => cases hh
    | cons x rest =>
      cases rest with
      | nil =>
        simp only [List.head?_cons, Option.some.injEq] at hh
        simp only [List.getLast?_singleton, Option.some.injEq] at hl
        subst hh; subst hl
        rw [reachB_zero h0]
        simp
      | cons y rest' => simp at hlen
  | succ k ih =>
    intro L v hw hlen
    rcases Nat.lt_or_ge L.length (k + 2) with hsh | hlong
    · exact reachB_mono (ih hw (by omega))
    · have hlen2 : L.length = k + 2 := by omega
      have hne : L ≠ [] := by intro e; rw [e] at hlen2; cases hlen2
      obtain ⟨hh, hl, hc⟩ := hw
      have hsplit := List.dropLast_append_getLast hne
      have hlast : L.getLast hne = v := by
        have := List.getLast?_eq_getLast L hne
        rw [hl] at this
        exact (Option.some.injEq .. ▸ this.symm)
      have hdl_ne : L.dropLast ≠ [] := by
        intro e
        have := List.length_dropLast L
        rw [e] at this
        simp at this
        omega
      have hdl_last := List.dropLast_append_getLast hdl_ne
      set u := L.dropLast.getLast hdl_ne with hu
      have hwalk_u : WalkFrom m 0 u L.dropLast := by
        refine ⟨?_, List.getLast?_eq_getLast _ hdl_ne, ?_⟩
        · rw [← hsplit] at hh
          rw [List.head?_append_of_ne_nil _ hdl_ne] at hh
          exact hh
        · have := hc
          rw [← hsplit, List.chain'_append] at this
          exact this.1
      have hadj : adjIdx m u v = true := by
        have := hc
        rw [← hsplit, List.chain'_append] at this
        have hlink := this.2.2 u (by rw [List.getLast?_eq_getLast _ hdl_ne]; rfl) v
          (by rw [hlast]; rfl)
        exact hlink
      have hu_lt : u < m.width * m.height :=
        walk_cells_lt hwalk_u h0 u (by
          rw [← List.dropLast_append_getLast hdl_ne]
          exact List.mem_append.mpr (Or.inr (List.mem_singleton.mpr rfl)))
      have hreach_u : reachB m k u = true :=
        ih hwalk_u (by have := List.length_dropLast L; omega)
      have hv_lt : v < m.width * m.height := (adjIdx_step hadj).1
      rw [reachB_succ k hv_lt]
      refine Bool.or_eq_true_iff.mpr (Or.inr ?_)
      rw [List.any_eq_true]
      exact ⟨u, List.mem_range.mpr hu_lt, by rw [hreach_u, hadj]; rfl⟩

/-- Breadth-first reachability yields a walk of bounded length. -/
theorem walk_of_reachB {m : Maze} :
    ∀ (n : Nat) {v : Nat}, reachB m n v = true →
    ∃ L, WalkFrom m 0 v L ∧ L.length ≤ n + 1 := by
  intro n
  induction n with
  | zero =>
    intro v h
    by_cases hv : v < m.width * m.height
    · rw [reachB_zero hv] at h
      have : v = 0 := by simpa using h
      subst this
      exact ⟨[0], ⟨rfl, rfl, List.chain'_singleton 0⟩, by simp⟩
    · rw [reachB_oob 0 hv] at h; cases h
  | succ k ih =>
    intro v h
    by_cases hv : v < m.width * m.height
    · rw [reachB_succ k hv] at h
      rcases Bool.or_eq_true_iff.mp h with h | h
      · obtain ⟨L, hw, hlen⟩ := ih h
        exact ⟨L, hw, by omega⟩
      · rw [List.any_eq_true] at h
        obtain ⟨u, -, hcond⟩ := h
        rw [Bool.and_eq_true] at hcond
        obtain ⟨L, hw, hlen⟩ := ih hcond.1
        exact ⟨L ++ [v], hw.snoc hcond.2, by
          rw [List.length_append]; simp; omega⟩
    · rw [reachB_oob _ hv] at h; cases h

/-- A list that is not duplicate-free splits around a repeated element. -/
theorem list_dup_split {α : Type} [DecidableEq α] :
    ∀ {L : List α}, ¬L.Nodup → ∃ (A : List α) (x : α) (B C : List α),
      L = A ++ (x :: (B ++ (x :: C))) := by
  intro L
  induction L with
  | nil => intro hnd; exact absurd List.nodup_nil hnd
  | cons y T ih =>
    intro hnd
    by_cases hy : y ∈ T
    · obtain ⟨s, t, rfl⟩ := List.append_of_mem hy
      exact ⟨[], y, s, t, rfl⟩
    · have : ¬T.Nodup := fun hT => hnd (List.nodup_cons.mpr ⟨hy, hT⟩)
      obtain ⟨A, x, B, C, rfl⟩ := ih this
      exact ⟨y :: A, x, B, C, rfl⟩

/-- Cutting the loop between two occurrences of the same cell keeps a
walk a walk. -/
theorem walk_splice {m : Maze} {a b : Nat} {A B C : List Nat} {x : Nat}
    (hw : WalkFrom m a b (A ++ (x :: (B ++ (x :: C))))) :
    WalkFrom m a b (A ++ (x :: C)) := by
  obtain ⟨hh, hl, hc⟩ := hw
  have esplit : A ++ (x :: (B ++ (x :: C))) = (A ++ (x :: B)) ++ (x :: C) := by simp
  rw [esplit] at hh hl hc
  rw [List.chain'_append] at hc
  obtain ⟨hcAB, hcxC, hlink2⟩ := hc
  rw [List.chain'_append] at hcAB
  obtain ⟨hcA, -, hlink1⟩ := hcAB
  have hch : List.Chain' (fun u v => adjIdx m u v = true) (A ++ (x :: C)) := by
    rw [List.chain'_append]
    refine ⟨hcA, hcxC, ?_⟩
    intro p hp q hq
    simp only [List.head?_cons, Option.mem_def, Option.some.injEq] at hq
    subst hq
    exact hlink1 p hp x rfl
  have hhd : (A ++ (x :: C)).head? = some a := by
    cases A with
    | nil => simpa using hh
    | cons a0 A' =>
      rw [List.head?_append_of_ne_nil _ (by simp)]
      rw [List.head?_append_of_ne_nil _ (by simp)] at hh
      exact hh
  have hlast : (A ++ (x :: C)).getLast? = some b := by
    rw [List.getLast?_append_of_ne_nil _ (by simp)] at hl
    rw [List.getLast?_append_of_ne_nil _ (by simp)]
    cases C with
    | nil =>
      simp only [List.getLast?_singleton]
      simp only [List.getLast?_singleton] at hl
      exact hl
    | cons c0 C' =>
      rw [List.getLast?_cons_cons] at hl ⊢
      exact hl
  exact ⟨hhd, hlast, hch⟩

/-- Every walk can be shortened to a duplicate-free walk. -/
theorem walk_shorten {m : Maze} {a b : Nat} :
    ∀ (n : Nat) (L : List Nat), L.length ≤ n → WalkFrom m a b L →
    ∃ L2, WalkFrom m a b L2 ∧ L2.length ≤ L.length ∧ L2.Nodup := by
  intro n
  induction n with
  | zero =>
    intro L hlen hw
    have : L = [] := List.length_eq_zero.mp (by omega)
    subst this
    cases hw.1
  | succ k ih =>
    intro L hlen hw
    by_cases hnd : L.Nodup
    · exact ⟨L, hw, Nat.le_refl _, hnd⟩
    · obtain ⟨A, x, B, C, rfl⟩ := list_dup_split hnd
      have hw2 := walk_splice hw
      have hshort : (A ++ (x :: C)).length < (A ++ (x :: (B ++ (x :: C)))).length := by
        simp only [List.length_append, List.length_cons]
        omega
      obtain ⟨L2, hwL2, hlen2, hnd2⟩ := ih (A ++ (x :: C)) (by omega) hw2
      exact ⟨L2, hwL2, by omega, hnd2⟩

/-- A duplicate-free list of in-bounds cells has at most `total` cells. -/
theorem nodup_length_le {N : Nat} {L : List Nat} (hnd : L.Nodup)
    (hlt : ∀ c ∈ L, c < N) : L.length ≤ N := by
  have h1 : L.toFinset.card = L.length := List.toFinset_card_of_nodup hnd
  have h2 : L.toFinset ⊆ Finset.range N := by
    intro c hc
    rw [List.mem_toFinset] at hc
    exact Finset.mem_range.mpr (hlt c hc)
  have := Finset.card_le_card h2
  rw [h1, Finset.card_range] at this
  exact this

/-- Reachability is witnessed within `total - 1` BFS layers. -/
theorem reachable_reachB {m : Maze} {v : Nat} (h0 : 0 < m.width * m.height)
    (hr : Reachable m v) : reachB m (m.width * m.height - 1) v = true := by
  obtain ⟨L, hw⟩ := hr
  obtain ⟨L2, hw2, -, hnd2⟩ := walk_shorten L.length L (Nat.le_refl _) hw
  have hcells := walk_cells_lt hw2 h0
  have hlen := nodup_length_le hnd2 hcells
  exact reachB_of_walk h0 _ hw2 (by omega)

/-- Minimality of `find?` over an ascending range. -/
theorem find?_range_min {p : Nat → Bool} :
    ∀ {N n : Nat}, (List.range N).find? p = some n → p n = true ∧ ∀ k < n, p k = false := by
  intro N
  induction N with
  | zero => intro n h; cases h
  | succ k ih =>
    intro n h
    rw [List.range_succ, List.find?_append] at h
    cases hfa : (List.range k).find? p with
    | some n' =>
      rw [hfa] at h
      have h2 : some n' = some n := h
      injection h2 with h2
      subst h2
      exact ih hfa
    | none =>
      rw [hfa] at h
      simp only [Option.none_or] at h
      have hl : p k = true ∧ n = k := by
        by_cases hpk : p k = true
        · refine ⟨hpk, ?_⟩
          simp only [List.find?, hpk] at h
          exact (Option.some.injEq .. ▸ h).symm
        · simp only [List.find?, Bool.not_eq_true] at hpk
          simp [List.find?, hpk] at h
      obtain ⟨hpk, rfl⟩ := hl
      refine ⟨hpk, fun j hj => ?_⟩
      have := List.find?_eq_none.mp hfa j (List.mem_range.mpr hj)
      simpa using this

/-- The BFS distance is attained and minimal. -/
theorem distN_spec {m : Maze} {v : Nat} (h0 : 0 < m.width * m.height)
    (hr : Reachable m v) :
    reachB m (distN m v) v = true ∧ ∀ k, k < distN m v → reachB m k v = false := by
  unfold distN
  cases hfind : (List.range (m.width * m.height + 1)).find? (fun n => reachB m n v) with
  | none =>
    have hbd := reachable_reachB h0 hr
    have := List.find?_eq_none.mp hfind (m.width * m.height - 1)
      (List.mem_range.mpr (by omega))
    rw [hbd] at this
    simp at this
  | some n =>
    obtain ⟨h1, h2⟩ := find?_range_min hfind
    exact ⟨h1, fun k hk => h2 k hk⟩

/-- Each walk from the start is at least as long as the BFS distance
plus one (cells counted). -/
theorem walk_length_ge {m : Maze} {v : Nat} {L : List Nat}
    (h0 : 0 < m.width * m.height) (hw : WalkFrom m 0 v L) :
    distN m v + 1 ≤ L.length := by
  have hr : Reachable m v := ⟨L, hw⟩
  obtain ⟨-, hmin⟩ := distN_spec h0 hr
  by_contra hcon
  have hlen : L.length - 1 < distN m v := by
    have hne : L ≠ [] := by intro e; rw [e] at hw; cases hw.1
    have : 1 ≤ L.length := List.length_pos.mpr hne
    omega
  have := reachB_of_walk h0 (L.length - 1) hw (by omega)
  rw [hmin _ hlen] at this
  cases this

/-- Some walk attains the BFS distance exactly. -/
theorem exists_walk_dist {m : Maze} {v : Nat} (h0 : 0 < m.width * m.height)
    (hr : Reachable m v) :
    ∃ L, WalkFrom m 0 v L ∧ L.length = distN m v + 1 := by
  obtain ⟨h1, -⟩ := distN_spec h0 hr
  obtain ⟨L, hw, hlen⟩ := walk_of_reachB _ h1
  have := walk_length_ge h0 hw
  exact ⟨L, hw, by omega⟩

/-! ### The reshuffle defect of `generate`

`dirs.shuffle(&mut rng())` runs on every pop of the frame stack, so a
frame re-pushed with a saved `dir_idx` resumes its scan inside a fresh
random ordering, not the ordering in which `dir_idx` was assigned.
The stream below (a legal sequence of shuffle outcomes, each a
permutation of R, L, D, U) drives a 3×3 generation run in which cell
`(2,2)` is never visited: its two neighbors dodge it at every re-pop
because the fresh shuffle hides the corresponding direction below the
saved index. -/

def cexShuffles : List (List Dir) :=
  [[.R, .D, .L, .U], [.R, .D, .L, .U], [.D, .R, .L, .U], [.L, .D, .R, .U],
   [.D, .L, .R, .U], [.L, .R, .D, .U], [.U, .R, .L, .D], [.R, .L, .D, .U],
   [.U, .R, .L, .D], [.R, .U, .L, .D], [.R, .L, .D, .U], [.D, .U, .L, .R],
   [.D, .R, .L, .U], [.R, .L, .D, .U], [.R, .L, .D, .U]]

/-- The adversarial shuffle stream for the 3×3 run. -/
def cexStream : Nat → List Dir := fun t => cexShuffles.getD t [.R, .L, .D, .U]

/-- Shuffle outcomes consumed once per cell-visit (in first-pop order)
during the same 3×3 run, for the spec-described algorithm. -/
def cexVisitShuffles : List (List Dir) :=
  [[.R, .D, .L, .U], [.R, .D, .L, .U], [.D, .R, .L, .U], [.L, .D, .R, .U],
   [.D, .L, .R, .U], [.L, .R, .D, .U], [.U, .R, .L, .D], [.R, .L, .D, .U],
   [.R, .L, .D, .U]]

def cexVisitStream : Nat → List Dir := fun t => cexVisitShuffles.getD t [.R, .L, .D, .U]

/-- Modelled from the spec: the state of the spec-described generator,
which fixes each cell's shuffled direction ordering at the cell's
first pop (`dir_idx = 0`) and reuses that same ordering on every
re-pop of the cell's frame (spec §4.2 step 3).  `orders` stores the
per-cell ordering (indexed by `y * width + x`), `shuffled` counts the
shuffles consumed so far. -/
structure SpecGenState where
  base : GenState
  orders : List (List Dir)
  shuffled : Nat
deriving Repr

/-- Modelled from the spec: one step of the spec-described generator.
Identical to `genStep` except that the scanned ordering is fixed once
per cell-visit instead of refreshed on every pop. -/
def specStep (width height : Nat) (rs : Nat → List Dir) (st : SpecGenState) :
    Option SpecGenState :=
  match st.base.stack with
  | [] => none
  | (x, y, dir_idx) :: rest =>
    let cell := y * width + x
    let ord := if dir_idx = 0 then rs st.shuffled else st.orders.getD cell []
    let orders' := if dir_idx = 0 then st.orders.set cell (rs st.shuffled) else st.orders
    let shuffled' := if dir_idx = 0 then st.shuffled + 1 else st.shuffled
    match scanDirs width height st.base.visited x y (ord.drop dir_idx) dir_idx with
    | none => some ⟨{ st.base with stack := rest }, orders', shuffled'⟩
    | some (i, d, nx, ny) =>
      let s' := carveWall st.base x y d
      some ⟨{ s' with
              visited := wset s'.visited ny nx true
              stack := (nx, ny, 0) :: (x, y, i + 1) :: rest }, orders', shuffled'⟩

/-- Modelled from the spec: the spec-described generation loop. -/
def specLoop (width height : Nat) (rs : Nat → List Dir) :
    Nat → SpecGenState → Option GenState
  | 0, _ => none
  | fuel + 1, st =>
    match specStep width height rs st with
    | none => some st.base
    | some st' => specLoop width height rs fuel st'

/-- Modelled from the spec: the spec-described generator (shuffle once
per cell-visit, resumed orderings). -/
def generateSpecModel (m : Maze) (rs : Nat → List Dir) : Maze :=
  match specLoop m.width m.height rs (genFuel m)
      ⟨genInit m, List.replicate (m.width * m.height) [], 0⟩ with
  | some s => { m with vert_walls := s.vert, hor_walls := s.hor }
  | none => m

/-- Claim C1: for every width, height ≥ 1 and every stream of random
choices, `generate` removes exactly `W*H - 1` walls, makes every cell
reachable from `(0,0)`, and the removed walls form a spanning tree.
This is FALSE on the code: with the legal shuffle stream `cexStream`
the 3×3 run removes only 7 of the required 8 walls and leaves the
corner cell `(2,2)` (index 8) unreachable — the re-shuffle on every
pop makes both neighbors of `(2,2)` skip it.  The theorem evaluates
the embedded code at that failing input. -/
theorem generate_not_spanning_cex :
    removedWalls ((Maze.new 3 3).generate cexStream) = 7 ∧
    3 * 3 - 1 = 8 ∧
    ¬ Reachable ((Maze.new 3 3).generate cexStream) 8 := by
  refine ⟨by decide, rfl, ?_⟩
  intro hr
  have h := reachable_reachB (by decide) hr
  have h8 : reachB ((Maze.new 3 3).generate cexStream)
      (((Maze.new 3 3).generate cexStream).width *
        ((Maze.new 3 3).generate cexStream).height - 1) 8 = false := by decide
  rw [h8] at h
  cases h

/-- Claim C4: the four candidate directions are shuffled exactly once
per cell-visit, and every later pop of a re-pushed frame scans the
same fixed ordering from its saved `dir_idx`.  This is FALSE on the
code (`dirs.shuffle` runs on every pop).  Demonstration: the code's
per-pop reshuffling run on `cexStream` diverges from the
spec-described fixed-per-visit discipline fed exactly the per-visit
shuffle outcomes of the same run — the spec discipline carves a
spanning 8 walls, the code carves 7. -/
theorem generate_reshuffles_every_pop_cex :
    removedWalls ((Maze.new 3 3).generate cexStream) = 7 ∧
    removedWalls (generateSpecModel (Maze.new 3 3) cexVisitStream) = 8 ∧
    (Maze.new 3 3).generate cexStream ≠ generateSpecModel (Maze.new 3 3) cexVisitStream := by
  refine ⟨by decide, by decide, by decide⟩

/-- Claim C7 counterexample: construction with a zero dimension is
claimed to fail before generation can begin; in fact `Maze::new` has
no validation whatsoever and happily returns a (degenerate) grid. -/
theorem new_zero_size_returns_grid :
    Maze.new 0 3 = { width := 0, height := 3,
                     vert_walls := [[true], [true], [true]],
                     hor_walls := [[], [], [], []] } := by
  decide

/-- Claim C7 (amended): `Maze::new` never rejects its arguments; for
every width and height (including 0) it returns a grid whose vertical
registry is `height` rows of `width + 1` entries, whose horizontal
registry is `height + 1` rows of `width` entries, and in which every
wall entry is `true`. -/
theorem new_all_walls_present (w h : Nat) :
    (Maze.new w h).vert_walls.length = h ∧
    (∀ row ∈ (Maze.new w h).vert_walls, row.length = w + 1 ∧ ∀ b ∈ row, b = true) ∧
    (Maze.new w h).hor_walls.length = h + 1 ∧
    (∀ row ∈ (Maze.new w h).hor_walls, row.length = w ∧ ∀ b ∈ row, b = true) := by
  refine ⟨by simp [Maze.new], ?_, by simp [Maze.new], ?_⟩ <;>
  · intro row hrow
    simp only [Maze.new] at hrow
    rw [List.eq_of_mem_replicate hrow]
    exact ⟨by simp, fun b hb => List.eq_of_mem_replicate hb⟩

/-- Claim C8: a fresh grid's registries have sizes `height × (width+1)`
and `(height+1) × width` with every entry `true`, and after `generate`
runs — whatever the random stream — every boundary wall (vertical
columns `0` and `width`, horizontal rows `0` and `height`) is still
`true`. -/
theorem new_full_and_generate_keeps_boundary (w h : Nat) (rs : Nat → List Dir)
    (hw : 0 < w) (hh : 0 < h) :
    (Maze.new w h).vert_walls.length = h ∧
    (∀ row ∈ (Maze.new w h).vert_walls, row.length = w + 1 ∧ ∀ b ∈ row, b = true) ∧
    (Maze.new w h).hor_walls.length = h + 1 ∧
    (∀ row ∈ (Maze.new w h).hor_walls, row.length = w ∧ ∀ b ∈ row, b = true) ∧
    BoundaryTrue w h ((Maze.new w h).generate rs).vert_walls
      ((Maze.new w h).generate rs).hor_walls := by
  obtain ⟨a1, a2, a3, a4⟩ := new_all_walls_present w h
  exact ⟨a1, a2, a3, a4, generate_boundary rs hw hh⟩

/-- Claim C8 witness at `w = h = 2` with a constant stream. -/
theorem new_full_and_generate_keeps_boundary_witness :
    (0 < 2 ∧ 0 < 2) ∧
    ((Maze.new 2 2).vert_walls.length = 2 ∧
     (∀ row ∈ (Maze.new 2 2).vert_walls, row.length = 2 + 1 ∧ ∀ b ∈ row, b = true) ∧
     (Maze.new 2 2).hor_walls.length = 2 + 1 ∧
     (∀ row ∈ (Maze.new 2 2).hor_walls, row.length = 2 ∧ ∀ b ∈ row, b = true) ∧
     BoundaryTrue 2 2 ((Maze.new 2 2).generate (fun _ => [.R, .L, .D, .U])).vert_walls
       ((Maze.new 2 2).generate (fun _ => [.R, .L, .D, .U])).hor_walls) :=
  ⟨⟨by decide, by decide⟩,
    new_full_and_generate_keeps_boundary 2 2 (fun _ => [.R, .L, .D, .U])
      (by decide) (by decide)⟩

/-- Claim C9: on a 1×1 grid, generation removes no wall for any random
stream (all four walls of the single cell remain), and `solve` returns
the single-cell path `[(0,0)]`. -/
theorem one_by_one_maze (rs : Nat → List Dir) :
    ((Maze.new 1 1).generate rs).vert_walls = [[true, true]] ∧
    ((Maze.new 1 1).generate rs).hor_walls = [[true], [true]] ∧
    removedWalls ((Maze.new 1 1).generate rs) = 0 ∧
    ((Maze.new 1 1).generate rs).solve = [(0, 0)] := by
  rw [generate_1x1]
  exact ⟨by decide, by decide, by decide, by decide⟩

/-! ### Invariants of the A* loop

`AInvB` collects the stable facts about a solver state; `Star` is the
per-cell frontier property (a cell with a score either has a fresh
heap entry or all its neighbors are fully relaxed), which is broken
for the popped cell during relaxation and re-established afterwards.
The field `J` is the certificate that every recorded score is the
length of a duplicate-free wall-free walk from the start whose cells
carry pointwise-bounded scores; it pins every score below `total`. -/

structure AInvB (m : Maze) (s : AState) : Prop where
  glen : s.g.length = m.width * m.height
  clen : s.came.length = m.width * m.height
  gstart : s.g.getD 0 none = some 0
  J : ∀ v gv, s.g.getD v none = some gv → ∃ L, WalkFrom m 0 v L ∧ L.Nodup ∧
        L.length = gv + 1 ∧
        ∀ i (hi : i < L.length), ∃ gi, gi ≤ i ∧ s.g.getD (L.get ⟨i, hi⟩) none = some gi
  came_start : s.came.getD 0 none = none
  came_def : ∀ v, v ≠ 0 → (s.g.getD v none).isSome → (s.came.getD v none).isSome
  came_inv : ∀ v c, s.came.getD v none = some c →
      adjIdx m c v = true ∧ ∃ gv gc, s.g.getD v none = some gv ∧
        s.g.getD c none = some gc ∧ gc < gv
  open_inv : ∀ e ∈ s.open_, e.2 < m.width * m.height ∧
      ∃ gv, s.g.getD e.2 none = some gv ∧
        gv + hManhattan m.width m.height e.2 ≤ e.1

/-- The frontier property for one cell. -/
def Star (m : Maze) (s : AState) (v : Nat) : Prop :=
  ∀ gv, s.g.getD v none = some gv →
    ((gv + hManhattan m.width m.height v, v) ∈ s.open_) ∨
    (∀ u, adjIdx m v u = true → ∃ gu, s.g.getD u none = some gu ∧ gu ≤ gv + 1)

/-- The full A* invariant. -/
def AInv (m : Maze) (s : AState) : Prop :=
  AInvB m s ∧ ∀ v, Star m s v

/-- Termination potential of the A* loop. -/
def Phi (m : Maze) (s : AState) : Nat :=
  s.open_.length +
    (s.g.map (fun go => match go with
      | none => m.width * m.height + 1
      | some x => x + 1)).sum

/-- Validity of a neighbor entry, as filtered inside the relax loop. -/
def validNb (m : Maze) (nb : Nat × Nat × Bool) : Prop :=
  nb.2.2 = true ∧ nb.1 < m.width ∧ nb.2.1 < m.height

instance (m : Maze) (nb : Nat × Nat × Bool) : Decidable (validNb m nb) := by
  unfold validNb; infer_instance

/-- Adjacency from `a` is exactly membership of a valid entry in `a`'s
neighbor array. -/
theorem adjIdx_iff_nbr {m : Maze} {a u : Nat} :
    adjIdx m a u = true ↔ ∃ nb ∈ nbrArray m (a % m.width) (a / m.width),
      validNb m nb ∧ nb.2.1 * m.width + nb.1 = u := by
  unfold adjIdx validNb
  rw [List.any_eq_true]
  constructor
  · rintro ⟨nb, hmem, hcond⟩
    simp only [Bool.and_eq_true, decide_eq_true_eq] at hcond
    exact ⟨nb, hmem, ⟨hcond.1.1.1, hcond.1.1.2, hcond.1.2⟩, hcond.2⟩
  · rintro ⟨nb, hmem, ⟨h1, h2, h3⟩, h4⟩
    refine ⟨nb, hmem, ?_⟩
    simp only [Bool.and_eq_true, decide_eq_true_eq]
    exact ⟨⟨⟨h1, h2⟩, h3⟩, h4⟩

/-- An empty pop means an empty heap. -/
theorem popMax_none {l : List (Nat × Nat)} (h : popMax l = none) : l = [] := by
  cases l with
  | nil => rfl
  | cons a b =>
    rw [popMax] at h
    cases hx : popMax b with
    | none => rw [hx] at h; cases h
    | some pr =>
      obtain ⟨c, r⟩ := pr
      rw [hx] at h
      dsimp only at h
      by_cases hc : entLt a c
      · rw [if_pos hc] at h; cases h
      · rw [if_neg hc] at h; cases h

/-- The popped element and the rest are a permutation of the heap. -/
theorem popMax_perm :
    ∀ {l rest : List (Nat × Nat)} {e : Nat × Nat}, popMax l = some (e, rest) →
    l.Perm (e :: rest) := by
  intro l
  induction l with
  | nil => intro rest e h; cases h
  | cons e0 l0 ih =>
    intro rest e h
    rw [popMax] at h
    cases hrec : popMax l0 with
    | none =>
      have hl0 := popMax_none hrec
      subst hl0
      rw [hrec] at h
      dsimp only at h
      simp only [Option.some.injEq, Prod.mk.injEq] at h
      obtain ⟨rfl, rfl⟩ := h
      exact List.Perm.refl _
    | some pr =>
      obtain ⟨b, rest'⟩ := pr
      rw [hrec] at h
      dsimp only at h
      have hperm0 := ih hrec
      by_cases hcmp : entLt e0 b
      · rw [if_pos hcmp] at h
        simp only [Option.some.injEq, Prod.mk.injEq] at h
        obtain ⟨rfl, rfl⟩ := h
        exact (List.Perm.cons e0 hperm0).trans (List.Perm.swap b e0 rest')
      · rw [if_neg hcmp] at h
        simp only [Option.some.injEq, Prod.mk.injEq] at h
        obtain ⟨rfl, rfl⟩ := h
        exact List.Perm.refl _

/-- No heap element ranks strictly above the popped one. -/
theorem popMax_max :
    ∀ {l rest : List (Nat × Nat)} {e : Nat × Nat}, popMax l = some (e, rest) →
    ∀ e' ∈ l, ¬ entLt e e' := by
  intro l
  induction l with
  | nil => intro rest e h; cases h
  | cons e0 l0 ih =>
    intro rest e h e' he'
    rw [popMax] at h
    cases hrec : popMax l0 with
    | none =>
      have hl0 := popMax_none hrec
      subst hl0
      rw [hrec] at h
      dsimp only at h
      simp only [Option.some.injEq, Prod.mk.injEq] at h
      obtain ⟨rfl, -⟩ := h
      rcases List.mem_singleton.mp he' with rfl
      intro hlt
      rcases hlt with hlt | ⟨-, hlt⟩ <;> omega
    | some pr =>
      obtain ⟨b, rest'⟩ := pr
      rw [hrec] at h
      dsimp only at h
      by_cases hcmp : entLt e0 b
      · rw [if_pos hcmp] at h
        simp only [Option.some.injEq, Prod.mk.injEq] at h
        obtain ⟨rfl, -⟩ := h
        rcases List.mem_cons.mp he' with rfl | he'
        · intro hlt
          rcases hcmp with hc | ⟨hc1, hc2⟩ <;> rcases hlt with hl | ⟨hl1, hl2⟩ <;> omega
        · exact ih hrec e' he'
      · rw [if_neg hcmp] at h
        simp only [Option.some.injEq, Prod.mk.injEq] at h
        obtain ⟨rfl, -⟩ := h
        rcases List.mem_cons.mp he' with rfl | he'
        · intro hlt
          rcases hlt with hl | ⟨hl1, hl2⟩ <;> omega
        · intro hlt
          have h1 := ih hrec e' he'
          unfold entLt at h1 hcmp hlt
          push_neg at h1 hcmp
          obtain ⟨h1a, h1b⟩ := h1
          obtain ⟨h2a, h2b⟩ := hcmp
          rcases hlt with hl | ⟨hl1, hl2⟩
          · omega
          · have e1 : e0.1 = b.1 := by omega
            have e2 : b.1 = e'.1 := by omega
            have hb1 := h2b e1
            have hb2 := h1b e2
            omega

/-- Updating one slot changes a mapped sum by the slot's contribution. -/
theorem map_sum_set {f : Option Nat → Nat} :
    ∀ {l : List (Option Nat)} {i : Nat}, i < l.length → ∀ (a : Option Nat),
    ((l.set i a).map f).sum + f (l.getD i none) = (l.map f).sum + f a := by
  intro l
  induction l with
  | nil => intro i hi; exact absurd hi (by simp)
  | cons x l0 ih =>
    intro i hi a
    cases i with
    | zero =>
      simp only [List.set, List.map_cons, List.sum_cons, List.getD_cons_zero]
      omega
    | succ j =>
      have hj : j < l0.length := by simpa using hi
      have := ih hj a
      simp only [List.set, List.map_cons, List.sum_cons, List.getD_cons_succ]
      omega

theorem encode_lt {w h nx ny : Nat} (h1 : nx < w) (h2 : ny < h) :
    ny * w + nx < w * h := by
  calc ny * w + nx < ny * w + w := by omega
  _ = (ny + 1) * w := by ring
  _ ≤ h * w := Nat.mul_le_mul_right _ (by omega)
  _ = w * h := Nat.mul_comm _ _

/-- A wall-free step never returns to its own source cell. -/
theorem adjIdx_ne {m : Maze} {a b : Nat} (h : adjIdx m a b = true) : b ≠ a := by
  obtain ⟨-, -, -, hsteps⟩ := adjIdx_step h
  intro e
  subst e
  rcases hsteps with ⟨e1, -⟩ | ⟨e1, -⟩ | ⟨e1, -⟩ | ⟨e1, -⟩ <;> omega

/-- Effect of relaxing one neighbor entry: all invariants are kept,
the popped cell's score is untouched, scores never increase, the
processed neighbor ends fully relaxed, the potential does not grow and
the heap only gains entries. -/
theorem relaxOne_spec {m : Maze} {current gc : Nat} {s : AState}
    {nb : Nat × Nat × Bool}
    (hnb : nb ∈ nbrArray m (current % m.width) (current / m.width))
    (hcur : s.g.getD current none = some gc)
    (hclt : current < m.width * m.height)
    (hb : AInvB m s) (hstar : ∀ v, v ≠ current → Star m s v) :
    AInvB m (relaxOne m current gc s nb) ∧
    (∀ v, v ≠ current → Star m (relaxOne m current gc s nb) v) ∧
    (relaxOne m current gc s nb).g.getD current none = some gc ∧
    (∀ u gu, s.g.getD u none = some gu →
      ∃ gu', (relaxOne m current gc s nb).g.getD u none = some gu' ∧ gu' ≤ gu) ∧
    (validNb m nb → ∃ gn,
      (relaxOne m current gc s nb).g.getD (nb.2.1 * m.width + nb.1) none = some gn ∧
      gn ≤ gc + 1) ∧
    Phi m (relaxOne m current gc s nb) ≤ Phi m s ∧
    (∀ e ∈ s.open_, e ∈ (relaxOne m current gc s nb).open_) := by
  by_cases hval : nb.2.2 = false ∨ m.width ≤ nb.1 ∨ m.height ≤ nb.2.1
  · have hs' : relaxOne m current gc s nb = s := by
      unfold relaxOne
      rw [if_pos hval]
    rw [hs']
    refine ⟨hb, hstar, hcur, fun u gu hu => ⟨gu, hu, Nat.le_refl _⟩, ?_,
      Nat.le_refl _, fun e he => he⟩
    intro hv
    obtain ⟨hv1, hv2, hv3⟩ := hv
    rcases hval with h | h | h
    · rw [hv1] at h; cases h
    · exact absurd hv2 (by omega)
    · exact absurd hv3 (by omega)
  · push_neg at hval
    obtain ⟨hok, hxlt, hylt⟩ := hval
    have hok' : nb.2.2 = true := by
      cases hh2 : nb.2.2
      · exact absurd hh2 hok
      · rfl
    have hvn : validNb m nb := ⟨hok', by omega, by omega⟩
    have hadj : adjIdx m current (nb.2.1 * m.width + nb.1) = true :=
      adjIdx_iff_nbr.mpr ⟨nb, hnb, hvn, rfl⟩
    have hnlt : nb.2.1 * m.width + nb.1 < m.width * m.height :=
      encode_lt (by omega) (by omega)
    have hne : nb.2.1 * m.width + nb.1 ≠ current := adjIdx_ne hadj
    set neighbor := nb.2.1 * m.width + nb.1 with hnbr
    have hupd : ∀ (hcase : s.g.getD neighbor none = none ∨
        ∃ gn, s.g.getD neighbor none = some gn ∧ gc + 1 < gn),
        let s' : AState :=
          { g := s.g.set neighbor (some (gc + 1))
            came := s.came.set neighbor (some current)
            open_ := (gc + 1 + hManhattan m.width m.height neighbor, neighbor) :: s.open_ }
        AInvB m s' ∧ (∀ v, v ≠ current → Star m s' v) ∧
        s'.g.getD current none = some gc ∧
        (∀ u gu, s.g.getD u none = some gu →
          ∃ gu', s'.g.getD u none = some gu' ∧ gu' ≤ gu) ∧
        (validNb m nb → ∃ gn,
          s'.g.getD neighbor none = some gn ∧ gn ≤ gc + 1) ∧
        Phi m s' ≤ Phi m s ∧ (∀ e ∈ s.open_, e ∈ s'.open_) := by
      intro hcase s'
      have hne0 : neighbor ≠ 0 := by
        intro e
        rcases hcase with hc | ⟨gn, hc, hlt⟩
        · rw [e, hb.gstart] at hc; cases hc
        · rw [e, hb.gstart] at hc
          injection hc with hc
          omega
      have hglt : neighbor < s.g.length := by rw [hb.glen]; exact hnlt
      have hclen : neighbor < s.came.length := by rw [hb.clen]; exact hnlt
      have hGset : s'.g.getD neighbor none = some (gc + 1) :=
        getD_set_self _ _ _ hglt
      have hGne : ∀ u, u ≠ neighbor → s'.g.getD u none = s.g.getD u none :=
        fun u hu => getD_set_ne _ (fun e => hu e.symm) _ _
      have hCset : s'.came.getD neighbor none = some current :=
        getD_set_self _ _ _ hclen
      have hCne : ∀ u, u ≠ neighbor → s'.came.getD u none = s.came.getD u none :=
        fun u hu => getD_set_ne _ (fun e => hu e.symm) _ _
      have hmono : ∀ u gu, s.g.getD u none = some gu →
          ∃ gu', s'.g.getD u none = some gu' ∧ gu' ≤ gu := by
        intro u gu hu
        by_cases hu' : u = neighbor
        · subst hu'
          rcases hcase with hc | ⟨gn, hc, hlt⟩
          · rw [hu] at hc; cases hc
          · rw [hu] at hc
            injection hc with hc
            exact ⟨gc + 1, hGset, by omega⟩
        · exact ⟨gu, by rw [hGne u hu']; exact hu, Nat.le_refl _⟩
      -- the walk certificate for the new score
      obtain ⟨L, hLw, hLnd, hLlen, hLpt⟩ := hb.J current gc hcur
      have hLcells : ∀ c ∈ L, c < m.width * m.height :=
        walk_cells_lt hLw (by omega)
      have hnotin : neighbor ∉ L := by
        intro hmem
        obtain ⟨i, hget⟩ := List.mem_iff_get.mp hmem
        obtain ⟨gi, hgi_le, hgi⟩ := hLpt i.val i.isLt
        rw [show L.get ⟨i.val, i.isLt⟩ = L.get i from rfl, hget] at hgi
        rcases hcase with hc | ⟨gn, hc, hlt⟩
        · rw [hgi] at hc; cases hc
        · rw [hgi] at hc
          injection hc with hc
          have : i.val < L.length := i.isLt
          omega
      have hL' : WalkFrom m 0 neighbor (L ++ [neighbor]) := hLw.snoc hadj
      have hL'nd : (L ++ [neighbor]).Nodup := by
        rw [List.nodup_append]
        exact ⟨hLnd, List.nodup_singleton _, by
          intro a ha hb2
          rw [List.mem_singleton] at hb2
          subst hb2
          exact hnotin ha⟩
      have hL'len : (L ++ [neighbor]).length = gc + 2 := by
        rw [List.length_append, hLlen]
        rfl
      have hbound : gc + 2 ≤ m.width * m.height := by
        have hcells' : ∀ c ∈ L ++ [neighbor], c < m.width * m.height :=
          walk_cells_lt hL' (by omega)
        have := nodup_length_le hL'nd hcells'
        omega
      have hcur' : s'.g.getD current none = some gc := by
        rw [hGne current (fun e => hne e.symm)]
        exact hcur
      have hJ' : ∀ v gv, s'.g.getD v none = some gv → ∃ L2, WalkFrom m 0 v L2 ∧
          L2.Nodup ∧ L2.length = gv + 1 ∧
          ∀ i (hi : i < L2.length), ∃ gi, gi ≤ i ∧
            s'.g.getD (L2.get ⟨i, hi⟩) none = some gi := by
        intro v gv hv
        by_cases hvv : v = neighbor
        · subst hvv
          rw [hGset] at hv
          injection hv with hv
          subst hv
          refine ⟨L ++ [neighbor], hL', hL'nd, by omega, ?_⟩
          intro i hi
          rcases Nat.lt_or_ge i L.length with hiL | hiL
          · obtain ⟨gi, hle, hgi⟩ := hLpt i hiL
            have hcell : (L ++ [neighbor]).get ⟨i, hi⟩ = L.get ⟨i, hiL⟩ := by
              rw [List.get_eq_getElem, List.get_eq_getElem, List.getElem_append_left]
            refine ⟨gi, hle, ?_⟩
            have hcm : L.get ⟨i, hiL⟩ ≠ neighbor := by
              intro e
              exact hnotin (e ▸ List.get_mem L i hiL)
            rw [hcell, hGne _ hcm]
            exact hgi
          · have hieq : i = L.length := by
              rw [List.length_append] at hi
              simp only [List.length_singleton] at hi
              omega
            subst hieq
            have hcell : (L ++ [neighbor]).get ⟨L.length, hi⟩ = neighbor := by
              rw [List.get_eq_getElem, List.getElem_concat_length]
              rfl
            exact ⟨gc + 1, by omega, by rw [hcell]; exact hGset⟩
        · rw [hGne v hvv] at hv
          obtain ⟨L2, h1, h2, h3, h4⟩ := hb.J v gv hv
          refine ⟨L2, h1, h2, h3, ?_⟩
          intro i hi
          obtain ⟨gi, hle, hgi⟩ := h4 i hi
          by_cases hcell : L2.get ⟨i, hi⟩ = neighbor
          · rcases hcase with hc | ⟨gn, hc, hlt⟩
            · rw [hcell] at hgi
              rw [hgi] at hc
              cases hc
            · rw [hcell] at hgi
              rw [hgi] at hc
              injection hc with hc
              refine ⟨gc + 1, by omega, by rw [hcell]; exact hGset⟩
          · exact ⟨gi, hle, by rw [hGne _ hcell]; exact hgi⟩
      refine ⟨⟨?_, ?_, ?_, hJ', ?_, ?_, ?_, ?_⟩, ?_, hcur', hmono,
        fun _ => ⟨gc + 1, hGset, Nat.le_refl _⟩, ?_, fun e he => List.mem_cons_of_mem _ he⟩
      · simpa using hb.glen
      · simpa using hb.clen
      · rw [hGne 0 (fun e => hne0 e.symm)]
        exact hb.gstart
      · rw [hCne 0 (fun e => hne0 e.symm)]
        exact hb.came_start
      · intro v hv0 hsome
        by_cases hvv : v = neighbor
        · subst hvv
          rw [hCset]
          rfl
        · rw [hGne v hvv] at hsome
          rw [hCne v hvv]
          exact hb.came_def v hv0 hsome
      · intro v c hvc
        by_cases hvv : v = neighbor
        · subst hvv
          rw [hCset] at hvc
          injection hvc with hvc
          subst hvc
          exact ⟨hadj, gc + 1, gc, hGset, hcur', by omega⟩
        · rw [hCne v hvv] at hvc
          obtain ⟨hadj0, gv, gc0, hgv, hgc0, hlt0⟩ := hb.came_inv v c hvc
          obtain ⟨gc0', hgc0', hle0'⟩ := hmono c gc0 hgc0
          exact ⟨hadj0, gv, gc0', by rw [hGne v hvv]; exact hgv, hgc0', by omega⟩
      · intro e he
        rcases List.mem_cons.mp he with rfl | he
        · exact ⟨hnlt, gc + 1, hGset, Nat.le_refl _⟩
        · obtain ⟨helt, gv, hgv, hle⟩ := hb.open_inv e he
          obtain ⟨gv', hgv', hle'⟩ := hmono e.2 gv hgv
          exact ⟨helt, gv', hgv', by omega⟩
      · intro v hvc gv hgv
        by_cases hvv : v = neighbor
        · subst hvv
          rw [hGset] at hgv
          injection hgv with hgv
          subst hgv
          exact Or.inl (List.mem_cons_self _ _)
        · rw [hGne v hvv] at hgv
          rcases hstar v hvc gv hgv with hmem | hset
          · exact Or.inl (List.mem_cons_of_mem _ hmem)
          · refine Or.inr ?_
            intro u hu
            obtain ⟨gu, hgu, hle⟩ := hset u hu
            obtain ⟨gu', hgu', hle'⟩ := hmono u gu hgu
            exact ⟨gu', hgu', by omega⟩
      · have hsum := map_sum_set (f := fun go => match go with
          | none => m.width * m.height + 1
          | some x => x + 1) hglt (some (gc + 1))
        unfold Phi
        simp only [List.length_cons]
        rcases hcase with hc | ⟨gn, hc, hlt⟩
        · rw [hc] at hsum
          simp only at hsum
          omega
        · rw [hc] at hsum
          simp only at hsum
          omega
    have hA : ¬(nb.2.2 = false ∨ m.width ≤ nb.1 ∨ m.height ≤ nb.2.1) := by
      push_neg
      exact ⟨hok, by omega, by omega⟩
    cases hgn : s.g.getD neighbor none with
    | none =>
      have hs' : relaxOne m current gc s nb =
          { g := s.g.set neighbor (some (gc + 1))
            came := s.came.set neighbor (some current)
            open_ := (gc + 1 + hManhattan m.width m.height neighbor, neighbor) ::
              s.open_ } := by
        unfold relaxOne
        rw [if_neg hA]
        dsimp only
        rw [← hnbr, hgn]
      rw [hs']
      exact hupd (Or.inl hgn)
    | some gn =>
      by_cases hlt : gc + 1 < gn
      · have hs' : relaxOne m current gc s nb =
            { g := s.g.set neighbor (some (gc + 1))
              came := s.came.set neighbor (some current)
              open_ := (gc + 1 + hManhattan m.width m.height neighbor, neighbor) ::
                s.open_ } := by
          unfold relaxOne
          rw [if_neg hA]
          dsimp only
          rw [← hnbr, hgn]
          dsimp only
          rw [if_pos hlt]
        rw [hs']
        exact hupd (Or.inr ⟨gn, hgn, hlt⟩)
      · have hs' : relaxOne m current gc s nb = s := by
          unfold relaxOne
          rw [if_neg hA]
          dsimp only
          rw [← hnbr, hgn]
          dsimp only
          rw [if_neg hlt]
        rw [hs']
        refine ⟨hb, hstar, hcur, fun u gu hu => ⟨gu, hu, Nat.le_refl _⟩,
          fun _ => ⟨gn, hgn, by omega⟩, Nat.le_refl _, fun e he => he⟩

/-- Effect of the whole neighbor loop (`foldl` over the four entries):
invariants kept, every processed valid neighbor fully relaxed. -/
theorem relaxFold_spec {m : Maze} {current gc : Nat} :
    ∀ (nbs : List (Nat × Nat × Bool)) (s : AState),
    (∀ nb ∈ nbs, nb ∈ nbrArray m (current % m.width) (current / m.width)) →
    s.g.getD current none = some gc → current < m.width * m.height →
    AInvB m s → (∀ v, v ≠ current → Star m s v) →
    AInvB m (nbs.foldl (relaxOne m current gc) s) ∧
    (∀ v, v ≠ current → Star m (nbs.foldl (relaxOne m current gc) s) v) ∧
    (nbs.foldl (relaxOne m current gc) s).g.getD current none = some gc ∧
    (∀ u gu, s.g.getD u none = some gu →
      ∃ gu', (nbs.foldl (relaxOne m current gc) s).g.getD u none = some gu' ∧ gu' ≤ gu) ∧
    (∀ nb ∈ nbs, validNb m nb → ∃ gn,
      (nbs.foldl (relaxOne m current gc) s).g.getD (nb.2.1 * m.width + nb.1) none =
        some gn ∧ gn ≤ gc + 1) ∧
    Phi m (nbs.foldl (relaxOne m current gc) s) ≤ Phi m s ∧
    (∀ e ∈ s.open_, e ∈ (nbs.foldl (relaxOne m current gc) s).open_) := by
  intro nbs
  induction nbs with
  | nil =>
    intro s _ hcur _ hb hstar
    exact ⟨hb, hstar, hcur, fun u gu hu => ⟨gu, hu, Nat.le_refl _⟩,
      fun nb hnb => absurd hnb (List.not_mem_nil nb), Nat.le_refl _, fun e he => he⟩
  | cons nb0 nbs0 ih =>
    intro s hmem hcur hclt hb hstar
    obtain ⟨hb1, hstar1, hcur1, hmono1, hset1, hphi1, hopen1⟩ :=
      relaxOne_spec (hmem nb0 (List.mem_cons_self _ _)) hcur hclt hb hstar
    obtain ⟨hb2, hstar2, hcur2, hmono2, hset2, hphi2, hopen2⟩ :=
      ih (relaxOne m current gc s nb0)
        (fun nb h => hmem nb (List.mem_cons_of_mem _ h)) hcur1 hclt hb1 hstar1
    rw [List.foldl_cons]
    refine ⟨hb2, hstar2, hcur2, ?_, ?_, Nat.le_trans hphi2 hphi1,
      fun e he => hopen2 e (hopen1 e he)⟩
    · intro u gu hu
      obtain ⟨gu1, hgu1, hle1⟩ := hmono1 u gu hu
      obtain ⟨gu2, hgu2, hle2⟩ := hmono2 u gu1 hgu1
      exact ⟨gu2, hgu2, by omega⟩
    · intro nb hnb hv
      rcases List.mem_cons.mp hnb with rfl | hnb
      · obtain ⟨gn, hgn, hle⟩ := hset1 hv
        obtain ⟨gn2, hgn2, hle2⟩ := hmono2 _ gn hgn
        exact ⟨gn2, hgn2, by omega⟩
      · exact hset2 nb hnb hv

/-- One continuing iteration of the A* main loop preserves the full
invariant and strictly decreases the potential. -/
theorem astarStep_cont_spec {m : Maze} {goal : Nat} {s s' : AState}
    (hinv : AInv m s) (hstep : astarStep m goal s = .cont s') :
    AInv m s' ∧ Phi m s' < Phi m s := by
  obtain ⟨hb, hstar⟩ := hinv
  unfold astarStep at hstep
  cases hpop : popMax s.open_ with
  | none => rw [hpop] at hstep; cases hstep
  | some pr =>
    obtain ⟨⟨k, current⟩, rest⟩ := pr
    rw [hpop] at hstep
    dsimp only at hstep
    by_cases hgoal : current = goal
    · rw [if_pos hgoal] at hstep; cases hstep
    · rw [if_neg hgoal] at hstep
      have hperm := popMax_perm hpop
      have hmem_cur : (k, current) ∈ s.open_ :=
        hperm.mem_iff.mpr (List.mem_cons_self _ _)
      obtain ⟨hclt, gc, hgc, hkey⟩ := hb.open_inv (k, current) hmem_cur
      have hrest_sub : ∀ e ∈ rest, e ∈ s.open_ :=
        fun e he => hperm.mem_iff.mpr (List.mem_cons_of_mem _ he)
      have hb1 : AInvB m { s with open_ := rest } :=
        ⟨hb.glen, hb.clen, hb.gstart, hb.J, hb.came_start, hb.came_def, hb.came_inv,
          fun e he => hb.open_inv e (hrest_sub e he)⟩
      have hstar1 : ∀ v, v ≠ current → Star m { s with open_ := rest } v := by
        intro v hv gv hgv
        rcases hstar v gv hgv with hm | hs2
        · left
          rcases List.mem_cons.mp (hperm.mem_iff.mp hm) with he | he
          · exact absurd (congrArg Prod.snd he) hv
          · exact he
        · exact Or.inr hs2
      rw [show ({ s with open_ := rest } : AState).g = s.g from rfl] at hgc
      rw [hgc] at hstep
      dsimp only at hstep
      obtain ⟨hb2, hstar2, hcur2, hmono2, hset2, hphi2, hopen2⟩ :=
        relaxFold_spec (nbrArray m (current % m.width) (current / m.width))
          { s with open_ := rest } (fun nb h => h) hgc hclt hb1 hstar1
      have hstar_cur : Star m ((nbrArray m (current % m.width)
          (current / m.width)).foldl (relaxOne m current gc)
          { s with open_ := rest }) current := by
        intro gv hgv
        rw [hcur2] at hgv
        injection hgv with hgv
        subst hgv
        refine Or.inr ?_
        intro u hu
        obtain ⟨nb, hnb, hvn, hidx⟩ := adjIdx_iff_nbr.mp hu
        obtain ⟨gn, hgn, hle⟩ := hset2 nb hnb hvn
        rw [hidx] at hgn
        exact ⟨gn, hgn, hle⟩
      have hs'eq : s' = (nbrArray m (current % m.width)
          (current / m.width)).foldl (relaxOne m current gc)
          { s with open_ := rest } := by
        injection hstep with h
        exact h.symm
      subst hs'eq
      refine ⟨⟨hb2, ?_⟩, ?_⟩
      · intro v
        by_cases hv : v = current
        · subst hv; exact hstar_cur
        · exact hstar2 v hv
      · have hlen : s.open_.length = rest.length + 1 := by
          rw [hperm.length_eq]
          rfl
        have hphi_pop : Phi m { s with open_ := rest } + 1 = Phi m s := by
          unfold Phi
          dsimp only
          rw [hlen]
          omega
        omega

/-- The A* loop runs to completion within the potential's fuel, ending
either with a drained heap or at the first pop of the goal. -/
theorem astarLoop_spec {m : Maze} {goal : Nat} :
    ∀ (fuel : Nat) (s : AState), AInv m s → Phi m s < fuel →
    ∃ s', astarLoop m goal fuel s = some s' ∧
      ((s'.open_ = [] ∧ AInv m s') ∨
        ∃ (t : AState) (k : Nat) (rest : List (Nat × Nat)), AInv m t ∧
          popMax t.open_ = some ((k, goal), rest) ∧ s'.g = t.g ∧ s'.came = t.came) := by
  intro fuel
  induction fuel with
  | zero => intro s _ hphi; omega
  | succ f ih =>
    intro s hinv hphi
    rw [astarLoop]
    cases hstep : astarStep m goal s with
    | done s1 =>
      refine ⟨s1, rfl, ?_⟩
      unfold astarStep at hstep
      cases hpop : popMax s.open_ with
      | none =>
        rw [hpop] at hstep
        injection hstep with hstep
        subst hstep
        exact Or.inl ⟨popMax_none hpop, hinv⟩
      | some pr =>
        obtain ⟨⟨k, current⟩, rest⟩ := pr
        rw [hpop] at hstep
        dsimp only at hstep
        by_cases hgoal : current = goal
        · rw [if_pos hgoal] at hstep
          injection hstep with hstep
          subst hstep
          subst hgoal
          exact Or.inr ⟨s, k, rest, hinv, hpop, rfl, rfl⟩
        · rw [if_neg hgoal] at hstep
          cases hgc : s.g.getD current none <;> rw [hgc] at hstep <;>
            dsimp only at hstep <;> cases hstep
    | cont s1 =>
      obtain ⟨hinv1, hphi1⟩ := astarStep_cont_spec hinv hstep
      exact ih s1 hinv1 (by omega)

/-- The initial solver state satisfies the invariant. -/
theorem astarInit_inv {m : Maze} (h0 : 0 < m.width * m.height) :
    AInv m (astarInit m) := by
  have hg0 : (astarInit m).g.getD 0 none = some 0 := by
    unfold astarInit
    exact getD_set_self _ _ _ (by simpa using h0)
  have hgv : ∀ v, v ≠ 0 → (astarInit m).g.getD v none = none := by
    intro v hv
    unfold astarInit
    rw [getD_set_ne _ (fun e => hv e.symm)]
    by_cases hvlt : v < m.width * m.height
    · exact getD_replicate _ _ hvlt
    · rw [List.getD_eq_getElem?_getD, List.getElem?_eq_none (by simpa using Nat.le_of_not_lt hvlt)]
      rfl
  have hcv : ∀ v, (astarInit m).came.getD v none = none := by
    intro v
    unfold astarInit
    by_cases hvlt : v < m.width * m.height
    · exact getD_replicate _ _ hvlt
    · rw [List.getD_eq_getElem?_getD, List.getElem?_eq_none (by simpa using Nat.le_of_not_lt hvlt)]
      rfl
  refine ⟨⟨by simp [astarInit], by simp [astarInit], hg0, ?_, hcv 0, ?_, ?_, ?_⟩, ?_⟩
  · intro v gv hgvv
    by_cases hv : v = 0
    · subst hv
      rw [hg0] at hgvv
      injection hgvv with hgvv
      subst hgvv
      refine ⟨[0], ⟨rfl, rfl, List.chain'_singleton 0⟩, List.nodup_singleton 0, rfl, ?_⟩
      intro i hi
      have : i = 0 := by simpa using hi
      subst this
      exact ⟨0, Nat.le_refl 0, hg0⟩
    · rw [hgv v hv] at hgvv
      cases hgvv
  · intro v hv hsome
    rw [hgv v hv] at hsome
    cases hsome
  · intro v c hvc
    rw [hcv v] at hvc
    cases hvc
  · intro e he
    unfold astarInit at he
    rcases List.mem_singleton.mp he with rfl
    refine ⟨h0, 0, ?_, ?_⟩
    · exact hg0
    · dsimp only
      omega
  · intro v gv hgvv
    by_cases hv : v = 0
    · subst hv
      rw [hg0] at hgvv
      injection hgvv with hgvv
      subst hgvv
      left
      show (0 + hManhattan m.width m.height 0, 0) ∈ (astarInit m).open_
      unfold astarInit
      rw [Nat.zero_add]
      exact List.mem_singleton.mpr rfl
    · rw [hgv v hv] at hgvv
      cases hgvv

/-- The initial potential fits under the fuel `total² + 2`. -/
theorem astarInit_phi {m : Maze} (h0 : 0 < m.width * m.height) :
    Phi m (astarInit m) < astarFuel m := by
  unfold Phi astarInit astarFuel
  dsimp only
  have hset := map_sum_set (f := fun go => match go with
      | none => m.width * m.height + 1
      | some x => x + 1)
    (l := List.replicate (m.width * m.height) (none : Option Nat)) (i := 0)
    (by simpa using h0) (some 0)
  rw [getD_replicate _ _ h0] at hset
  have hrep : ((List.replicate (m.width * m.height) (none : Option Nat)).map
      (fun go => match go with
        | none => m.width * m.height + 1
        | some x => x + 1)).sum = m.width * m.height * (m.width * m.height + 1) := by
    rw [List.map_replicate, List.sum_replicate, smul_eq_mul]
  rw [hrep] at hset
  simp only at hset
  have hmul : m.width * m.height * (m.width * m.height + 1) =
      m.width * m.height * (m.width * m.height) + m.width * m.height := by ring
  rw [hmul] at hset
  have hpow : (m.width * m.height) ^ 2 = m.width * m.height * (m.width * m.height) := by
    ring
  rw [hpow]
  simp only [List.length_singleton]
  omega

/-- With an empty heap every breadth-first-reachable cell is settled at
its true distance or better. -/
theorem settled_dist {m : Maze} {s : AState} (hinv : AInv m s)
    (hopen : s.open_ = []) :
    ∀ (n v : Nat), v < m.width * m.height → reachB m n v = true →
    ∃ gv, s.g.getD v none = some gv ∧ gv ≤ n := by
  intro n
  induction n with
  | zero =>
    intro v hvlt hr
    rw [reachB_zero hvlt] at hr
    have : v = 0 := by simpa using hr
    subst this
    exact ⟨0, hinv.1.gstart, Nat.le_refl 0⟩
  | succ k ih =>
    intro v hvlt hr
    rw [reachB_succ k hvlt] at hr
    rcases Bool.or_eq_true_iff.mp hr with hr | hr
    · obtain ⟨gv, hgv, hle⟩ := ih v hvlt hr
      exact ⟨gv, hgv, by omega⟩
    · rw [List.any_eq_true] at hr
      obtain ⟨u, hu_mem, hcond⟩ := hr
      rw [Bool.and_eq_true] at hcond
      obtain ⟨hru, hadj⟩ := hcond
      obtain ⟨gu, hgu, hgule⟩ := ih u (List.mem_range.mp hu_mem) hru
      rcases hinv.2 u gu hgu with hm | hset
      · rw [hopen] at hm
        cases hm
      · obtain ⟨gv, hgv, hle⟩ := hset v hadj
        exact ⟨gv, hgv, by omega⟩

theorem walk_getD_head {m : Maze} {a b : Nat} {L : List Nat} (hw : WalkFrom m a b L) :
    L.getD 0 0 = a := by
  obtain ⟨hh, -, -⟩ := hw
  cases L with
  | nil => cases hh
  | cons x rest =>
    simp only [List.head?_cons, Option.some.injEq] at hh
    simpa using hh

theorem walk_getD_last {m : Maze} {a b : Nat} {L : List Nat} (hw : WalkFrom m a b L) :
    L.getD (L.length - 1) 0 = b := by
  obtain ⟨-, hl, -⟩ := hw
  rw [List.getLast?_eq_getElem?] at hl
  rw [List.getD_eq_getElem?_getD, hl]
  rfl

theorem walk_adj_consec {m : Maze} {a b : Nat} {L : List Nat} (hw : WalkFrom m a b L)
    {i : Nat} (hi : i + 1 < L.length) :
    adjIdx m (L.getD i 0) (L.getD (i + 1) 0) = true := by
  obtain ⟨-, -, hc⟩ := hw
  rw [List.chain'_iff_get] at hc
  have hstep := hc i (by omega)
  have e1 : L.getD i 0 = L.get ⟨i, by omega⟩ := by
    rw [List.getD_eq_getElem?_getD, List.getElem?_eq_getElem (by omega)]
    rfl
  have e2 : L.getD (i + 1) 0 = L.get ⟨i + 1, by omega⟩ := by
    rw [List.getD_eq_getElem?_getD, List.getElem?_eq_getElem hi]
    rfl
  rw [e1, e2]
  exact hstep

theorem walk_drop {m : Maze} {b : Nat} :
    ∀ {L : List Nat} {a : Nat} (j : Nat), WalkFrom m a b L → j < L.length →
    WalkFrom m (L.getD j 0) b (L.drop j) := by
  intro L
  induction L with
  | nil => intro a j _ hj; simp at hj
  | cons x rest ih =>
    intro a j hw hj
    cases j with
    | zero =>
      have hax : a = x := by
        have := walk_getD_head hw
        simpa using this.symm
      subst hax
      simpa using hw
    | succ j' =>
      have hj' : j' < rest.length := by simpa using hj
      cases rest with
      | nil => simp at hj'
      | cons y rest' =>
        obtain ⟨hh, hl, hc⟩ := hw
        obtain ⟨hadj, hch⟩ := List.chain'_cons.mp hc
        rw [List.getLast?_cons_cons] at hl
        have hwt : WalkFrom m y b (y :: rest') := ⟨rfl, hl, hch⟩
        have := ih j' hwt hj'
        simpa using this

/-- When the goal is popped from the heap, its recorded score is
exactly the BFS distance: otherwise some cell on a shortest walk would
still hold a fresh heap entry with a strictly better key, beating the
popped entry (the Manhattan heuristic never overestimates the
remaining walk). -/
theorem goalpop_dist {m : Maze} {t : AState} {k : Nat} {rest : List (Nat × Nat)}
    (hw : 0 < m.width) (hh : 0 < m.height)
    (hinv : AInv m t)
    (hpop : popMax t.open_ = some ((k, m.width * m.height - 1), rest))
    (hr : Reachable m (m.width * m.height - 1)) :
    t.g.getD (m.width * m.height - 1) none = some (distN m (m.width * m.height - 1)) := by
  set goal := m.width * m.height - 1 with hgoal
  have h0 : 0 < m.width * m.height := Nat.mul_pos hw hh
  have hperm := popMax_perm hpop
  have hmem : (k, goal) ∈ t.open_ := hperm.mem_iff.mpr (List.mem_cons_self _ _)
  obtain ⟨hglt, gg, hgg, hkey⟩ := hinv.1.open_inv _ hmem
  have hgg' : t.g.getD goal none = some gg := hgg
  have hkey' : gg + hManhattan m.width m.height goal ≤ k := hkey
  have hhgoal : hManhattan m.width m.height goal = 0 := by
    rw [hManhattan_eq_mdist hw hh]
    unfold mdist
    simp
  rw [hhgoal, Nat.add_zero] at hkey'
  obtain ⟨Lg, hLgw, -, hLglen, -⟩ := hinv.1.J goal gg hgg'
  have hd_le : distN m goal ≤ gg := by
    have := walk_length_ge h0 hLgw
    omega
  rcases Nat.eq_or_lt_of_le hd_le with heq | hlt
  · rw [hgg', heq]
  · exfalso
    set d := distN m goal with hd
    obtain ⟨L, hLw, hLlen⟩ := exists_walk_dist h0 hr
    have hQex : ∃ i, i < L.length ∧
        ¬∃ gi, gi ≤ i ∧ t.g.getD (L.getD i 0) none = some gi := by
      refine ⟨d, by omega, ?_⟩
      rintro ⟨gi, hgile, hgi⟩
      have hlast : L.getD (L.length - 1) 0 = goal := walk_getD_last hLw
      rw [show L.length - 1 = d from by omega] at hlast
      rw [hlast, hgg'] at hgi
      injection hgi with hgi
      omega
    obtain ⟨istar, ⟨hilt, hiP⟩, hmin⟩ := wellFounded_lt.has_min
      {i : Nat | i < L.length ∧
        ¬∃ gi, gi ≤ i ∧ t.g.getD (L.getD i 0) none = some gi} hQex
    have hipos : 0 < istar := by
      rcases Nat.eq_zero_or_pos istar with hz | hpos
      · exfalso
        subst hz
        exact hiP ⟨0, Nat.le_refl 0, by rw [walk_getD_head hLw]; exact hinv.1.gstart⟩
      · exact hpos
    have hPprev : ∃ gi, gi ≤ istar - 1 ∧
        t.g.getD (L.getD (istar - 1) 0) none = some gi := by
      by_contra hcon
      exact hmin (istar - 1) ⟨by omega, hcon⟩ (by omega)
    obtain ⟨gu, hgule, hgu⟩ := hPprev
    rcases hinv.2 _ gu hgu with hm | hset
    · have hdropw : WalkFrom m (L.getD (istar - 1) 0) goal
          (L.drop (istar - 1)) := walk_drop _ hLw (by omega)
      have hmd : mdist m.width (L.getD (istar - 1) 0) goal ≤
          (L.drop (istar - 1)).length - 1 := walk_mdist hdropw
      have hdroplen : (L.drop (istar - 1)).length =
          L.length - (istar - 1) := List.length_drop _ _
      have hkey_u : gu + hManhattan m.width m.height (L.getD (istar - 1) 0) ≤ d := by
        rw [hManhattan_eq_mdist hw hh, ← hgoal]
        omega
      have hmax := popMax_max hpop _ hm
      have hklt : gu + hManhattan m.width m.height (L.getD (istar - 1) 0) < k := by
        omega
      exact hmax (Or.inl hklt)
    · have hadj : adjIdx m (L.getD (istar - 1) 0) (L.getD istar 0) = true := by
        have hcc := walk_adj_consec hLw (i := istar - 1) (by omega)
        rw [show istar - 1 + 1 = istar from by omega] at hcc
        exact hcc
      obtain ⟨gv, hgv, hgvle⟩ := hset _ hadj
      exact hiP ⟨gv, by omega, hgv⟩

/-- The BFS distance never exceeds the number of cells. -/
theorem distN_le {m : Maze} (v : Nat) : distN m v ≤ m.width * m.height := by
  unfold distN
  cases hfind : (List.range (m.width * m.height + 1)).find? (fun n => reachB m n v) with
  | none => exact Nat.zero_le _
  | some n =>
    have hmem := List.mem_of_find?_eq_some hfind
    have := List.mem_range.mp hmem
    dsimp only
    omega

/-- The `came_from` reconstruction loop of `solve`, specified over any
score/predecessor tables with strictly decreasing predecessor scores:
starting from a settled cell it terminates within its score plus one
steps and its output lists, in reverse, a wall-free walk from the
start cell. -/
theorem recon_spec {m : Maze} {g came : List (Option Nat)}
    (hcd : ∀ v, v ≠ 0 → (g.getD v none).isSome = true →
      (came.getD v none).isSome = true)
    (hci : ∀ v c, came.getD v none = some c → adjIdx m c v = true ∧
      ∃ gv gc, g.getD v none = some gv ∧ g.getD c none = some gc ∧ gc < gv) :
    ∀ (fuel : Nat) (cur gv : Nat) (acc : List (Nat × Nat)),
      g.getD cur none = some gv → gv < fuel →
    ∃ I : List Nat, reconLoop m.width came fuel cur acc =
        some (acc ++ I.map (coordsOf m.width)) ∧
      I.length ≤ gv ∧ WalkFrom m 0 cur ((0 : Nat) :: I.reverse) := by
  intro fuel
  induction fuel with
  | zero => intro cur gv acc hg hlt; omega
  | succ f ih =>
    intro cur gv acc hg hlt
    cases hcame : came.getD cur none with
    | none =>
      have hcur0 : cur = 0 := by
        by_contra hne
        have hs := hcd cur hne (by rw [hg]; rfl)
        rw [hcame] at hs
        simp at hs
      subst hcur0
      refine ⟨[], ?_, Nat.zero_le _, ⟨rfl, by simp, List.chain'_singleton 0⟩⟩
      rw [reconLoop, hcame]
      simp
    | some p =>
      obtain ⟨hadj, gv', gp, hgv', hgp, hplt⟩ := hci cur p hcame
      rw [hg] at hgv'
      injection hgv' with e
      subst e
      obtain ⟨J, hrec, hlen', hwalk'⟩ :=
        ih p gp (acc ++ [(cur % m.width, cur / m.width)]) hgp (by omega)
      refine ⟨cur :: J, ?_, by simp only [List.length_cons]; omega, ?_⟩
      · rw [reconLoop, hcame]
        show reconLoop m.width came f p (acc ++ [(cur % m.width, cur / m.width)]) =
          some (acc ++ (cur :: J).map (coordsOf m.width))
        rw [hrec]
        simp [coordsOf]
      · have he : ((0 : Nat) :: (cur :: J).reverse) =
            (((0 : Nat) :: J.reverse) ++ [cur]) := by simp
        rw [he]
        exact WalkFrom.snoc hwalk' hadj

/-- Exit state of the A* main loop at the fuel used by `solve`: the
loop completes; the start keeps score 0; every settled non-start cell
has a predecessor link; predecessor links are wall-free steps with
strictly smaller scores; the goal's score is exactly the BFS distance
when the goal is reachable; and the goal has no predecessor link when
it is unreachable. -/
theorem astar_final {m : Maze} (hw : 0 < m.width) (hh : 0 < m.height) :
    ∃ s', astarLoop m (m.width * m.height - 1) (astarFuel m) (astarInit m) = some s' ∧
      s'.g.getD 0 none = some 0 ∧
      (∀ v, v ≠ 0 → (s'.g.getD v none).isSome = true →
        (s'.came.getD v none).isSome = true) ∧
      (∀ v c, s'.came.getD v none = some c → adjIdx m c v = true ∧
        ∃ gv gc, s'.g.getD v none = some gv ∧ s'.g.getD c none = some gc ∧ gc < gv) ∧
      (Reachable m (m.width * m.height - 1) →
        s'.g.getD (m.width * m.height - 1) none =
          some (distN m (m.width * m.height - 1))) ∧
      (¬ Reachable m (m.width * m.height - 1) →
        s'.came.getD (m.width * m.height - 1) none = none) := by
  have h0 : 0 < m.width * m.height := Nat.mul_pos hw hh
  obtain ⟨s', hloop, hcase⟩ := @astarLoop_spec m (m.width * m.height - 1)
    (astarFuel m) (astarInit m) (astarInit_inv h0) (astarInit_phi h0)
  rcases hcase with ⟨hopen, hinv⟩ | ⟨t, k, rest, hinv, hpop, hge, hce⟩
  · refine ⟨s', hloop, hinv.1.gstart, hinv.1.came_def, hinv.1.came_inv, ?_, ?_⟩
    · intro hr
      obtain ⟨hreach, -⟩ := distN_spec h0 hr
      obtain ⟨gv, hgv, hle⟩ := settled_dist hinv hopen
        (distN m (m.width * m.height - 1)) (m.width * m.height - 1) (by omega) hreach
      obtain ⟨L, hLw, -, hLlen, -⟩ := hinv.1.J _ gv hgv
      have hlb := walk_length_ge h0 hLw
      have he : gv = distN m (m.width * m.height - 1) := by omega
      rw [hgv]
      exact congrArg some he
    · intro hnr
      cases hcg : s'.came.getD (m.width * m.height - 1) none with
      | none => rfl
      | some c =>
        obtain ⟨-, gv, gc, hgv, -, -⟩ := hinv.1.came_inv _ _ hcg
        obtain ⟨L, hLw, -⟩ := hinv.1.J _ gv hgv
        exact absurd ⟨L, hLw⟩ hnr
  · refine ⟨s', hloop, ?_, ?_, ?_, ?_, ?_⟩
    · rw [hge]; exact hinv.1.gstart
    · intro v hv hs
      rw [hge] at hs
      rw [hce]
      exact hinv.1.came_def v hv hs
    · intro v c hvc
      rw [hce] at hvc
      rw [hge]
      exact hinv.1.came_inv v c hvc
    · intro hr
      rw [hge]
      exact goalpop_dist hw hh hinv hpop hr
    · intro hnr
      rw [hce]
      cases hcg : t.came.getD (m.width * m.height - 1) none with
      | none => rfl
      | some c =>
        obtain ⟨-, gv, gc, hgv, -, -⟩ := hinv.1.came_inv _ _ hcg
        obtain ⟨L, hLw, -⟩ := hinv.1.J _ gv hgv
        exact absurd ⟨L, hLw⟩ hnr

/-- When the goal cell is reachable, `solve` returns the coordinate
image of a wall-free walk from cell 0 to the goal cell whose length is
the BFS shortest-path distance plus one. -/
theorem solve_walk {m : Maze} (hw : 0 < m.width) (hh : 0 < m.height)
    (hr : Reachable m (m.width * m.height - 1)) :
    ∃ W : List Nat, WalkFrom m 0 (m.width * m.height - 1) W ∧
      W.length = distN m (m.width * m.height - 1) + 1 ∧
      Maze.solve m = W.map (coordsOf m.width) := by
  have h0 : 0 < m.width * m.height := Nat.mul_pos hw hh
  obtain ⟨s', hloop, hg0, hcd, hci, hreach, -⟩ := astar_final hw hh
  have hgg := hreach hr
  have hdlt : distN m (m.width * m.height - 1) < m.width * m.height + 2 := by
    have := distN_le (m := m) (m.width * m.height - 1)
    omega
  obtain ⟨I, hrec, hlen, hwalk⟩ := recon_spec hcd hci (m.width * m.height + 2)
    (m.width * m.height - 1) (distN m (m.width * m.height - 1)) [] hgg hdlt
  refine ⟨(0 : Nat) :: I.reverse, hwalk, ?_, ?_⟩
  · have hge := walk_length_ge h0 hwalk
    simp only [List.length_cons, List.length_reverse] at hge ⊢
    omega
  · have hsolve : Maze.solve m =
        (((reconLoop m.width ((astarLoop m (m.width * m.height - 1) (astarFuel m)
            (astarInit m)).getD (astarInit m)).came (m.width * m.height + 2)
            (m.width * m.height - 1) []).getD []) ++ [(0, 0)]).reverse := rfl
    rw [hsolve, hloop]
    simp only [Option.getD_some]
    rw [hrec]
    simp only [Option.getD_some, List.nil_append, List.map_cons, List.map_reverse]
    simp [coordsOf]

/-- C2: when the goal cell `(W-1, H-1)` is reachable from `(0,0)`
through wall-free moves, the path returned by `solve` has length
exactly the BFS shortest-path distance plus one — it is a
minimum-length path. -/
theorem solve_shortest_length {m : Maze} (hw : 0 < m.width) (hh : 0 < m.height)
    (hr : Reachable m (m.width * m.height - 1)) :
    (Maze.solve m).length = distN m (m.width * m.height - 1) + 1 := by
  obtain ⟨W, -, hlen, heq⟩ := solve_walk hw hh hr
  rw [heq, List.length_map, hlen]

/-- A concrete 2×2 maze with the walls `(0,0)–(1,0)` and `(1,0)–(1,1)`
removed; its goal cell is reachable in two steps. -/
def mS : Maze :=
  { width := 2
    height := 2
    vert_walls := [[true, false, true], [true, true, true]]
    hor_walls := [[true, true], [true, false], [true, true]] }

/-- Witness for the C2 theorem at the concrete maze `mS`. -/
theorem solve_shortest_length_witness :
    (Maze.solve mS).length = distN mS (mS.width * mS.height - 1) + 1 :=
  solve_shortest_length (by decide) (by decide)
    ⟨[0, 1, 3], rfl, rfl, List.chain'_cons.mpr ⟨by decide,
      List.chain'_cons.mpr ⟨by decide, List.chain'_singleton 3⟩⟩⟩

/-- C5: when the goal cell `(W-1, H-1)` is not reachable from `(0,0)`,
`solve` returns exactly the one-element path `[(0, 0)]`. -/
theorem solve_unreachable {m : Maze} (hw : 0 < m.width) (hh : 0 < m.height)
    (hnr : ¬ Reachable m (m.width * m.height - 1)) :
    Maze.solve m = [(0, 0)] := by
  obtain ⟨s', hloop, -, -, -, -, hun⟩ := astar_final hw hh
  have hcg := hun hnr
  have hrl : reconLoop m.width s'.came (m.width * m.height + 2)
      (m.width * m.height - 1) [] = some [] := by
    rw [show m.width * m.height + 2 = (m.width * m.height + 1) + 1 from rfl,
      reconLoop, hcg]
  have hsolve : Maze.solve m =
      (((reconLoop m.width ((astarLoop m (m.width * m.height - 1) (astarFuel m)
          (astarInit m)).getD (astarInit m)).came (m.width * m.height + 2)
          (m.width * m.height - 1) []).getD []) ++ [(0, 0)]).reverse := rfl
  rw [hsolve, hloop]
  simp only [Option.getD_some]
  rw [hrl]
  simp

/-- Witness for the C5 theorem: the fully-walled fresh 2×2 grid. -/
theorem solve_unreachable_witness : Maze.solve (Maze.new 2 2) = [(0, 0)] :=
  solve_unreachable (by decide) (by decide)
    (fun hr => by
      have hrb := reachable_reachB (m := Maze.new 2 2) (by decide) hr
      revert hrb
      decide)

/-- C6: at the fuel amounts used by `generate` and `solve`, the
carving loop, the A* main loop and the predecessor-reconstruction loop
all terminate (return `some`). -/
theorem generate_solve_terminate (w h : Nat) (hw : 0 < w) (hh : 0 < h)
    (rs : Nat → List Dir) (m : Maze) (hmw : 0 < m.width) (hmh : 0 < m.height) :
    (genLoop w h rs (genFuel (Maze.new w h)) 0 (genInit (Maze.new w h))).isSome = true ∧
    ∃ s', astarLoop m (m.width * m.height - 1) (astarFuel m) (astarInit m) = some s' ∧
      (reconLoop m.width s'.came (m.width * m.height + 2)
        (m.width * m.height - 1) []).isSome = true := by
  constructor
  · obtain ⟨s2, hs2, -⟩ := generate_run rs hw hh
    rw [hs2]
    rfl
  · obtain ⟨s', hloop, -, hcd, hci, hre, hun⟩ := astar_final hmw hmh
    refine ⟨s', hloop, ?_⟩
    by_cases hr : Reachable m (m.width * m.height - 1)
    · have hgg := hre hr
      have hdlt : distN m (m.width * m.height - 1) < m.width * m.height + 2 := by
        have := distN_le (m := m) (m.width * m.height - 1)
        omega
      obtain ⟨I, hrec, -, -⟩ := recon_spec hcd hci (m.width * m.height + 2)
        (m.width * m.height - 1) (distN m (m.width * m.height - 1)) [] hgg hdlt
      rw [hrec]
      rfl
    · have hcg := hun hr
      rw [show m.width * m.height + 2 = (m.width * m.height + 1) + 1 from rfl,
        reconLoop, hcg]
      rfl

/-- Witness for the C6 theorem at concrete sizes, stream and maze. -/
theorem generate_solve_terminate_witness :
    (genLoop 2 2 (fun _ => [Dir.R, Dir.L, Dir.D, Dir.U]) (genFuel (Maze.new 2 2)) 0
      (genInit (Maze.new 2 2))).isSome = true ∧
    ∃ s', astarLoop mS (mS.width * mS.height - 1) (astarFuel mS) (astarInit mS) =
        some s' ∧
      (reconLoop mS.width s'.came (mS.width * mS.height + 2)
        (mS.width * mS.height - 1) []).isSome = true :=
  generate_solve_terminate 2 2 (by decide) (by decide)
    (fun _ => [Dir.R, Dir.L, Dir.D, Dir.U]) mS (by decide) (by decide)

/-- The coordinate content of a wall-free step: the two cells differ
by one in exactly one coordinate and the separating wall entry is
removed. -/
theorem adjIdx_coord {m : Maze} {a b : Nat} (h : adjIdx m a b = true) :
    (a / m.width = b / m.width ∧ b % m.width = a % m.width + 1 ∧
      wget m.vert_walls (a / m.width) (b % m.width) = false) ∨
    (a / m.width = b / m.width ∧ a % m.width = b % m.width + 1 ∧
      wget m.vert_walls (a / m.width) (a % m.width) = false) ∨
    (a % m.width = b % m.width ∧ b / m.width = a / m.width + 1 ∧
      wget m.hor_walls (b / m.width) (a % m.width) = false) ∨
    (a % m.width = b % m.width ∧ a / m.width = b / m.width + 1 ∧
      wget m.hor_walls (a / m.width) (a % m.width) = false) := by
  simp only [adjIdx, nbrArray, List.any_eq_true, List.mem_cons, List.not_mem_nil,
    or_false, Bool.and_eq_true, decide_eq_true_eq] at h
  obtain ⟨t, ht, ⟨⟨hok, h1⟩, h2⟩, h3⟩ := h
  rcases ht with rfl | rfl | rfl | rfl <;>
    dsimp only at hok h1 h2 h3 <;>
    simp only [Bool.and_eq_true, decide_eq_true_eq, Bool.not_eq_true'] at hok <;>
    subst h3 <;>
    rw [encode_mod h1, encode_div h1]
  · exact Or.inr (Or.inl ⟨rfl, by omega, hok.2⟩)
  · exact Or.inl ⟨rfl, rfl, hok.2⟩
  · exact Or.inr (Or.inr (Or.inr ⟨rfl, by omega, hok.2⟩))
  · exact Or.inr (Or.inr (Or.inl ⟨rfl, rfl, hok.2⟩))

/-- C3: when the goal cell is reachable, the path returned by `solve`
starts at `(0,0)`, ends at `(W-1, H-1)`, and every consecutive pair of
cells differs by one in exactly one coordinate with the separating
wall removed. -/
theorem solve_path_valid {m : Maze} (hw : 0 < m.width) (hh : 0 < m.height)
    (hr : Reachable m (m.width * m.height - 1)) :
    (Maze.solve m).head? = some (0, 0) ∧
    (Maze.solve m).getLast? = some (m.width - 1, m.height - 1) ∧
    (Maze.solve m).Chain' (fun p q =>
      (p.2 = q.2 ∧ q.1 = p.1 + 1 ∧ wget m.vert_walls p.2 q.1 = false) ∨
      (p.2 = q.2 ∧ p.1 = q.1 + 1 ∧ wget m.vert_walls p.2 p.1 = false) ∨
      (p.1 = q.1 ∧ q.2 = p.2 + 1 ∧ wget m.hor_walls q.2 p.1 = false) ∨
      (p.1 = q.1 ∧ p.2 = q.2 + 1 ∧ wget m.hor_walls p.2 p.1 = false)) := by
  obtain ⟨W, hWw, -, heq⟩ := solve_walk hw hh hr
  obtain ⟨hWh, hWl, hWc⟩ := hWw
  rw [heq]
  refine ⟨?_, ?_, ?_⟩
  · rw [List.head?_map, hWh]
    simp [coordsOf]
  · rw [List.getLast?_map, hWl]
    obtain ⟨e1, e2⟩ := goal_coords hw hh
    simp [coordsOf, e1, e2]
  · rw [List.chain'_map]
    refine List.Chain'.imp ?_ hWc
    intro u v huv
    simp only [coordsOf]
    rcases adjIdx_coord huv with ⟨e1, e2, e3⟩ | ⟨e1, e2, e3⟩ | ⟨e1, e2, e3⟩ | ⟨e1, e2, e3⟩
    · exact Or.inl ⟨e1, e2, e3⟩
    · exact Or.inr (Or.inl ⟨e1, e2, e3⟩)
    · exact Or.inr (Or.inr (Or.inl ⟨e1, e2, e3⟩))
    · exact Or.inr (Or.inr (Or.inr ⟨e1, e2, e3⟩))

/-- Witness for the C3 theorem at the concrete maze `mS`. -/
theorem solve_path_valid_witness :
    (Maze.solve mS).head? = some (0, 0) ∧
    (Maze.solve mS).getLast? = some (mS.width - 1, mS.height - 1) ∧
    (Maze.solve mS).Chain' (fun p q =>
      (p.2 = q.2 ∧ q.1 = p.1 + 1 ∧ wget mS.vert_walls p.2 q.1 = false) ∨
      (p.2 = q.2 ∧ p.1 = q.1 + 1 ∧ wget mS.vert_walls p.2 p.1 = false) ∨
      (p.1 = q.1 ∧ q.2 = p.2 + 1 ∧ wget mS.hor_walls q.2 p.1 = false) ∨
      (p.1 = q.1 ∧ p.2 = q.2 + 1 ∧ wget mS.hor_walls p.2 p.1 = false)) :=
  solve_path_valid (by decide) (by decide)
    ⟨[0, 1, 3], rfl, rfl, List.chain'_cons.mpr ⟨by decide,
      List.chain'_cons.mpr ⟨by decide, List.chain'_singleton 3⟩⟩⟩

/-! ### The forest invariant of `generate` (intermediate states)

The carving loop is replayed step by step (`genIter`): after every
prefix of iterations, each removed wall joins two visited cells and
the wall-free graph is acyclic.  A step either only pops a frame
(walls and visited unchanged) or carves exactly one wall between the
current cell and a previously unvisited neighbor (`CarveJoin`). -/

/-- The maze formed by the wall tables of an intermediate generation
state. -/
def mazeOf (w h : Nat) (s : GenState) : Maze :=
  { width := w, height := h, vert_walls := s.vert, hor_walls := s.hor }

/-- The first `n` iterations of the carving loop (the state stays
fixed once the stack empties); iteration `t` consults shuffle `rs t`,
exactly as in `genLoop`. -/
def genIter (w h : Nat) (rs : Nat → List Dir) : Nat → Nat → GenState → GenState
  | 0, _, s => s
  | n + 1, t, s =>
    match genStep w h (rs t) s with
    | none => s
    | some s2 => genIter w h rs n (t + 1) s2

/-- Every stack frame's cell is already marked visited. -/
def StackVis (s : GenState) : Prop :=
  ∀ p ∈ s.stack, wget s.visited p.2.1 p.1 = true

/-- Every removed wall joins two visited cells: both endpoints of
every wall-free adjacency are marked visited. -/
def EdgesVisited (w h : Nat) (s : GenState) : Prop :=
  ∀ a b, adjIdx (mazeOf w h s) a b = true →
    wget s.visited (a / w) (a % w) = true ∧ wget s.visited (b / w) (b % w) = true

/-- A simple cycle in the wall-free graph: at least three pairwise
distinct cells, consecutive ones adjacent, and the last adjacent to
the first. -/
def IsCycle (m : Maze) (C : List Nat) : Prop :=
  3 ≤ C.length ∧ C.Nodup ∧ C.Chain' (fun u v => adjIdx m u v = true) ∧
  ∃ lv hv, C.getLast? = some lv ∧ C.head? = some hv ∧ adjIdx m lv hv = true

/-- The wall-free graph contains no simple cycle. -/
def CycleFree (m : Maze) : Prop := ¬ ∃ C, IsCycle m C

/-- One carving action: the wall between a visited cell `a` and an
unvisited cell `b` is removed, `b` is marked visited in the same step,
and no adjacency other than `a – b` appears. -/
def CarveJoin (w h : Nat) (s s2 : GenState) : Prop :=
  ∃ a b, a < w * h ∧ b < w * h ∧
    wget s.visited (a / w) (a % w) = true ∧
    wget s.visited (b / w) (b % w) = false ∧
    s2.visited = wset s.visited (b / w) (b % w) true ∧
    adjIdx (mazeOf w h s2) a b = true ∧
    ∀ u v, adjIdx (mazeOf w h s2) u v = true →
      adjIdx (mazeOf w h s) u v = true ∨ (u = a ∧ v = b) ∨ (u = b ∧ v = a)

theorem div_mul_add_mod (u w : Nat) : u / w * w + u % w = u := by
  rw [Nat.mul_comm]
  exact Nat.div_add_mod u w

theorem head?_mem {α : Type} {l : List α} {a : α} (h : l.head? = some a) : a ∈ l := by
  cases l with
  | nil => cases h
  | cons x t =>
    simp only [List.head?_cons, Option.some.injEq] at h
    subst h
    exact List.mem_cons_self _ _

theorem getLast?_mem {α : Type} {l : List α} {a : α} (h : l.getLast? = some a) :
    a ∈ l := by
  obtain ⟨hne, he⟩ := List.mem_getLast?_eq_getLast (l := l) (x := a) h
  rw [he]
  exact List.getLast_mem hne

theorem wget_wset_true_mono {rows : List (List Bool)} {y0 x0 : Nat}
    (hy0 : y0 < rows.length) (hx0 : x0 < (rows.getD y0 []).length)
    {y x : Nat} (hv : wget rows y x = true) :
    wget (wset rows y0 x0 true) y x = true := by
  by_cases hsame : y0 = y ∧ x0 = x
  · obtain ⟨rfl, rfl⟩ := hsame
    exact wget_wset_self true hy0 hx0
  · rw [wget_wset_ne true (by tauto)]
    exact hv

theorem wget_replicate_true {n k : Nat} (y x : Nat) :
    wget (List.replicate n (List.replicate k true)) y x = true := by
  unfold wget
  by_cases hy : y < n
  · rw [getD_replicate _ _ hy]
    by_cases hx : x < k
    · rw [getD_replicate _ _ hx]
    · rw [List.getD_eq_getElem?_getD,
        List.getElem?_eq_none (by simpa using Nat.le_of_not_lt hx)]
      rfl
  · have he : (List.replicate n (List.replicate k true)).getD y [] = ([] : List Bool) := by
      rw [List.getD_eq_getElem?_getD,
        List.getElem?_eq_none (by simpa using Nat.le_of_not_lt hy)]
      rfl
    rw [he]
    rfl

/-- Explicit characterization of a wall-free step through the four
neighbor entries. -/
theorem adjIdx_iff_cases {m : Maze} {u v : Nat} :
    adjIdx m u v = true ↔
    (0 < u % m.width ∧ u % m.width - 1 < m.width ∧ u / m.width < m.height ∧
      wget m.vert_walls (u / m.width) (u % m.width) = false ∧
      v = u / m.width * m.width + (u % m.width - 1)) ∨
    (u % m.width + 1 < m.width ∧ u / m.width < m.height ∧
      wget m.vert_walls (u / m.width) (u % m.width + 1) = false ∧
      v = u / m.width * m.width + (u % m.width + 1)) ∨
    (0 < u / m.width ∧ u % m.width < m.width ∧ u / m.width - 1 < m.height ∧
      wget m.hor_walls (u / m.width) (u % m.width) = false ∧
      v = (u / m.width - 1) * m.width + u % m.width) ∨
    (u / m.width + 1 < m.height ∧ u % m.width < m.width ∧
      wget m.hor_walls (u / m.width + 1) (u % m.width) = false ∧
      v = (u / m.width + 1) * m.width + u % m.width) := by
  simp only [adjIdx, nbrArray, List.any_eq_true, List.mem_cons, List.not_mem_nil,
    or_false, Bool.and_eq_true, decide_eq_true_eq]
  constructor
  · rintro ⟨t, ht, ⟨⟨hok, h1⟩, h2⟩, h3⟩
    rcases ht with rfl | rfl | rfl | rfl <;>
      dsimp only at hok h1 h2 h3 <;>
      simp only [Bool.and_eq_true, decide_eq_true_eq, Bool.not_eq_true'] at hok
    · exact Or.inl ⟨hok.1, h1, h2, hok.2, h3.symm⟩
    · exact Or.inr (Or.inl ⟨h1, h2, hok.2, h3.symm⟩)
    · exact Or.inr (Or.inr (Or.inl ⟨hok.1, h1, h2, hok.2, h3.symm⟩))
    · exact Or.inr (Or.inr (Or.inr ⟨hok.1, h1, hok.2, h3.symm⟩))
  · rintro (⟨c1, c2, c3, c4, c5⟩ | ⟨c1, c2, c3, c4⟩ | ⟨c1, c2, c3, c4, c5⟩ |
      ⟨c1, c2, c3, c4⟩)
    · refine ⟨(u % m.width - 1, u / m.width,
        decide (0 < u % m.width) && !(wget m.vert_walls (u / m.width) (u % m.width))),
        Or.inl rfl, ⟨⟨?_, c2⟩, c3⟩, c5.symm⟩
      simp only [Bool.and_eq_true, decide_eq_true_eq, Bool.not_eq_true']
      exact ⟨c1, c4⟩
    · refine ⟨(u % m.width + 1, u / m.width,
        decide (u % m.width + 1 < m.width) &&
          !(wget m.vert_walls (u / m.width) (u % m.width + 1))),
        Or.inr (Or.inl rfl), ⟨⟨?_, c1⟩, c2⟩, c4.symm⟩
      simp only [Bool.and_eq_true, decide_eq_true_eq, Bool.not_eq_true']
      exact ⟨c1, c3⟩
    · refine ⟨(u % m.width, u / m.width - 1,
        decide (0 < u / m.width) && !(wget m.hor_walls (u / m.width) (u % m.width))),
        Or.inr (Or.inr (Or.inl rfl)), ⟨⟨?_, c2⟩, c3⟩, c5.symm⟩
      simp only [Bool.and_eq_true, decide_eq_true_eq, Bool.not_eq_true']
      exact ⟨c1, c4⟩
    · refine ⟨(u % m.width, u / m.width + 1,
        decide (u / m.width + 1 < m.height) &&
          !(wget m.hor_walls (u / m.width + 1) (u % m.width))),
        Or.inr (Or.inr (Or.inr rfl)), ⟨⟨?_, c2⟩, c1⟩, c4.symm⟩
      simp only [Bool.and_eq_true, decide_eq_true_eq, Bool.not_eq_true']
      exact ⟨c1, c3⟩

/-- Removing one vertical wall entry `(y0, x0)` creates no adjacency
other than the one between the two cells it separates. -/
theorem adjIdx_carve_vert {w h : Nat} {vert hor : List (List Bool)} {y0 x0 : Nat} :
    ∀ u v, adjIdx (Maze.mk w h (wset vert y0 x0 false) hor) u v = true →
      adjIdx (Maze.mk w h vert hor) u v = true ∨
      (u = y0 * w + (x0 - 1) ∧ v = y0 * w + x0) ∨
      (u = y0 * w + x0 ∧ v = y0 * w + (x0 - 1)) := by
  intro u v hadj
  rw [adjIdx_iff_cases] at hadj
  dsimp only at hadj
  rcases hadj with ⟨c1, c2, c3, c4, c5⟩ | ⟨c1, c2, c3, c4⟩ |
    ⟨c1, c2, c3, c4, c5⟩ | ⟨c1, c2, c3, c4⟩
  · by_cases hsame : y0 = u / w ∧ x0 = u % w
    · obtain ⟨e1, e2⟩ := hsame
      right; right
      constructor
      · rw [e1, e2]
        exact (div_mul_add_mod u w).symm
      · rw [c5, e1, e2]
    · left
      rw [adjIdx_iff_cases]
      dsimp only
      left
      rw [wget_wset_ne _ (by tauto)] at c4
      exact ⟨c1, c2, c3, c4, c5⟩
  · by_cases hsame : y0 = u / w ∧ x0 = u % w + 1
    · obtain ⟨e1, e2⟩ := hsame
      right; left
      constructor
      · rw [e1, e2, Nat.add_sub_cancel]
        exact (div_mul_add_mod u w).symm
      · rw [c4, e1, e2]
    · left
      rw [adjIdx_iff_cases]
      dsimp only
      right; left
      rw [wget_wset_ne _ (by tauto)] at c3
      exact ⟨c1, c2, c3, c4⟩
  · left
    rw [adjIdx_iff_cases]
    dsimp only
    right; right; left
    exact ⟨c1, c2, c3, c4, c5⟩
  · left
    rw [adjIdx_iff_cases]
    dsimp only
    right; right; right
    exact ⟨c1, c2, c3, c4⟩

/-- Removing one horizontal wall entry `(y0, x0)` creates no adjacency
other than the one between the two cells it separates. -/
theorem adjIdx_carve_hor {w h : Nat} {vert hor : List (List Bool)} {y0 x0 : Nat} :
    ∀ u v, adjIdx (Maze.mk w h vert (wset hor y0 x0 false)) u v = true →
      adjIdx (Maze.mk w h vert hor) u v = true ∨
      (u = (y0 - 1) * w + x0 ∧ v = y0 * w + x0) ∨
      (u = y0 * w + x0 ∧ v = (y0 - 1) * w + x0) := by
  intro u v hadj
  rw [adjIdx_iff_cases] at hadj
  dsimp only at hadj
  rcases hadj with ⟨c1, c2, c3, c4, c5⟩ | ⟨c1, c2, c3, c4⟩ |
    ⟨c1, c2, c3, c4, c5⟩ | ⟨c1, c2, c3, c4⟩
  · left
    rw [adjIdx_iff_cases]
    dsimp only
    left
    exact ⟨c1, c2, c3, c4, c5⟩
  · left
    rw [adjIdx_iff_cases]
    dsimp only
    right; left
    exact ⟨c1, c2, c3, c4⟩
  · by_cases hsame : y0 = u / w ∧ x0 = u % w
    · obtain ⟨e1, e2⟩ := hsame
      right; right
      constructor
      · rw [e1, e2]
        exact (div_mul_add_mod u w).symm
      · rw [c5, e1, e2]
    · left
      rw [adjIdx_iff_cases]
      dsimp only
      right; right; left
      rw [wget_wset_ne _ (by tauto)] at c4
      exact ⟨c1, c2, c3, c4, c5⟩
  · by_cases hsame : y0 = u / w + 1 ∧ x0 = u % w
    · obtain ⟨e1, e2⟩ := hsame
      right; left
      constructor
      · rw [e1, e2, Nat.add_sub_cancel]
        exact (div_mul_add_mod u w).symm
      · rw [c4, e1, e2]
    · left
      rw [adjIdx_iff_cases]
      dsimp only
      right; right; right
      rw [wget_wset_ne _ (by tauto)] at c3
      exact ⟨c1, c2, c3, c4⟩

theorem carveWall_visited (s : GenState) (x y : Nat) (d : Dir) :
    (carveWall s x y d).visited = s.visited := by
  cases d <;> rfl

/-- A generation step keeps every stack frame's cell visited. -/
theorem genStep_stackvis {w h : Nat} {dirs : List Dir} {s s2 : GenState}
    (hd : GenDims w h s) (hsv : StackVis s)
    (hstep : genStep w h dirs s = some s2) : StackVis s2 := by
  obtain ⟨sv, sh, svis, sst⟩ := s
  obtain ⟨hvl, hvr, -, -, -, -⟩ := hd
  have hvl' : svis.length = h := hvl
  have hvr' : ∀ y', y' < h → (svis.getD y' []).length = w := hvr
  cases sst with
  | nil => simp [genStep] at hstep
  | cons fr rest =>
    obtain ⟨x, y, di⟩ := fr
    simp only [genStep] at hstep
    cases hscan : scanDirs w h svis x y (dirs.drop di) di with
    | none =>
      rw [hscan] at hstep
      simp only [Option.some.injEq] at hstep
      subst hstep
      intro p hp
      exact hsv p (List.mem_cons_of_mem _ hp)
    | some found =>
      obtain ⟨i, d, nx, ny⟩ := found
      rw [hscan] at hstep
      simp only [Option.some.injEq] at hstep
      obtain ⟨hnx, hny, -, -, -⟩ := scanDirs_spec hscan
      subst hstep
      have hmono : ∀ {yy xx : Nat}, wget svis yy xx = true →
          wget (wset svis ny nx true) yy xx = true := by
        intro yy xx hvv
        exact wget_wset_true_mono (by rw [hvl']; exact hny)
          (by rw [hvr' ny hny]; exact hnx) hvv
      intro p hp
      rcases List.mem_cons.mp hp with rfl | hp'
      · show wget (wset (carveWall ⟨sv, sh, svis, (x, y, di) :: rest⟩ x y d).visited
          ny nx true) ny nx = true
        rw [carveWall_visited]
        exact wget_wset_self true (by rw [hvl']; exact hny)
          (by rw [hvr' ny hny]; exact hnx)
      · rcases List.mem_cons.mp hp' with rfl | hp2
        · show wget (wset (carveWall ⟨sv, sh, svis, (x, y, di) :: rest⟩ x y d).visited
            ny nx true) y x = true
          rw [carveWall_visited]
          exact hmono (hsv (x, y, di) (List.mem_cons_self _ _))
        · show wget (wset (carveWall ⟨sv, sh, svis, (x, y, di) :: rest⟩ x y d).visited
            ny nx true) p.2.1 p.1 = true
          rw [carveWall_visited]
          exact hmono (hsv p (List.mem_cons_of_mem _ hp2))

/-- What one generation step does to the maze: either the scan fell
through (walls and visited unchanged, frame dropped), or exactly one
wall is carved, joining the current (visited) cell to the unvisited
neighbor found by the scan, which is marked visited in the same
step. -/
theorem genStep_carve {w h : Nat} {dirs : List Dir} {s s2 : GenState}
    (hd : GenDims w h s) (hb : StackBnd w h s) (hsv : StackVis s)
    (hstep : genStep w h dirs s = some s2) :
    (s2.vert = s.vert ∧ s2.hor = s.hor ∧ s2.visited = s.visited) ∨
    CarveJoin w h s s2 := by
  obtain ⟨sv, sh, svis, sst⟩ := s
  obtain ⟨hvl, hvr, hel, her, hhl, hhr⟩ := hd
  have hel' : sv.length = h := hel
  have her' : ∀ y', y' < h → (sv.getD y' []).length = w + 1 := her
  have hhl' : sh.length = h + 1 := hhl
  have hhr' : ∀ y', y' < h + 1 → (sh.getD y' []).length = w := hhr
  cases sst with
  | nil => simp [genStep] at hstep
  | cons fr rest =>
    obtain ⟨x, y, di⟩ := fr
    have hfr : x < w ∧ y < h := hb (x, y, di) (List.mem_cons_self _ _)
    simp only [genStep] at hstep
    cases hscan : scanDirs w h svis x y (dirs.drop di) di with
    | none =>
      rw [hscan] at hstep
      simp only [Option.some.injEq] at hstep
      subst hstep
      exact Or.inl ⟨rfl, rfl, rfl⟩
    | some found =>
      obtain ⟨i, d, nx, ny⟩ := found
      rw [hscan] at hstep
      simp only [Option.some.injEq] at hstep
      obtain ⟨hnx, hny, hunvis, -, hdir⟩ := scanDirs_spec hscan
      subst hstep
      right
      unfold CarveJoin
      rcases hdir with ⟨rfl, h1, h2⟩ | ⟨rfl, h1, h2⟩ | ⟨rfl, h1, h2⟩ | ⟨rfl, h1, h2⟩ <;>
        refine ⟨y * w + x, ny * w + nx, encode_lt hfr.1 hfr.2, encode_lt hnx hny,
          ?_, ?_, ?_, ?_, ?_⟩
      · rw [encode_div hfr.1, encode_mod hfr.1]
        exact hsv (x, y, di) (List.mem_cons_self _ _)
      · rw [encode_div hnx, encode_mod hnx]
        exact hunvis
      · rw [encode_div hnx, encode_mod hnx]
        rfl
      · rw [adjIdx_iff_cases]
        dsimp only [mazeOf, carveWall]
        rw [encode_mod hfr.1, encode_div hfr.1]
        refine Or.inr (Or.inl ⟨by omega, hfr.2, ?_, ?_⟩)
        · exact wget_wset_self false (by rw [hel']; exact hfr.2)
            (by rw [her' y hfr.2]; omega)
        · rw [h1, h2]
      · intro u v hadj
        have hadj' : adjIdx (Maze.mk w h (wset sv y (x + 1) false) sh) u v = true := hadj
        rcases adjIdx_carve_vert u v hadj' with hold | ⟨hu, hv⟩ | ⟨hu, hv⟩
        · exact Or.inl hold
        · rw [Nat.add_sub_cancel] at hu
          exact Or.inr (Or.inl ⟨hu, by rw [h1, h2]; exact hv⟩)
        · rw [Nat.add_sub_cancel] at hv
          exact Or.inr (Or.inr ⟨by rw [h1, h2]; exact hu, hv⟩)
      · rw [encode_div hfr.1, encode_mod hfr.1]
        exact hsv (x, y, di) (List.mem_cons_self _ _)
      · rw [encode_div hnx, encode_mod hnx]
        exact hunvis
      · rw [encode_div hnx, encode_mod hnx]
        rfl
      · rw [adjIdx_iff_cases]
        dsimp only [mazeOf, carveWall]
        rw [encode_mod hfr.1, encode_div hfr.1]
        refine Or.inl ⟨by omega, by omega, hfr.2, ?_, ?_⟩
        · exact wget_wset_self false (by rw [hel']; exact hfr.2)
            (by rw [her' y hfr.2]; omega)
        · rw [h2]
          omega
      · intro u v hadj
        have hadj' : adjIdx (Maze.mk w h (wset sv y x false) sh) u v = true := hadj
        rcases adjIdx_carve_vert u v hadj' with hold | ⟨hu, hv⟩ | ⟨hu, hv⟩
        · exact Or.inl hold
        · refine Or.inr (Or.inr ⟨?_, hv⟩)
          rw [h2, hu]
          omega
        · refine Or.inr (Or.inl ⟨hu, ?_⟩)
          rw [h2, hv]
          omega
      · rw [encode_div hfr.1, encode_mod hfr.1]
        exact hsv (x, y, di) (List.mem_cons_self _ _)
      · rw [encode_div hnx, encode_mod hnx]
        exact hunvis
      · rw [encode_div hnx, encode_mod hnx]
        rfl
      · rw [adjIdx_iff_cases]
        dsimp only [mazeOf, carveWall]
        rw [encode_mod hfr.1, encode_div hfr.1]
        refine Or.inr (Or.inr (Or.inr ⟨by omega, hfr.1, ?_, ?_⟩))
        · exact wget_wset_self false (by rw [hhl']; omega)
            (by rw [hhr' (y + 1) (by omega)]; exact hfr.1)
        · rw [h1, h2]
      · intro u v hadj
        have hadj' : adjIdx (Maze.mk w h sv (wset sh (y + 1) x false)) u v = true := hadj
        rcases adjIdx_carve_hor u v hadj' with hold | ⟨hu, hv⟩ | ⟨hu, hv⟩
        · exact Or.inl hold
        · rw [Nat.add_sub_cancel] at hu
          exact Or.inr (Or.inl ⟨hu, by rw [h1, h2]; exact hv⟩)
        · rw [Nat.add_sub_cancel] at hv
          exact Or.inr (Or.inr ⟨by rw [h1, h2]; exact hu, hv⟩)
      · rw [encode_div hfr.1, encode_mod hfr.1]
        exact hsv (x, y, di) (List.mem_cons_self _ _)
      · rw [encode_div hnx, encode_mod hnx]
        exact hunvis
      · rw [encode_div hnx, encode_mod hnx]
        rfl
      · rw [adjIdx_iff_cases]
        dsimp only [mazeOf, carveWall]
        rw [encode_mod hfr.1, encode_div hfr.1]
        refine Or.inr (Or.inr (Or.inl ⟨by omega, hfr.1, by omega, ?_, ?_⟩))
        · exact wget_wset_self false (by rw [hhl']; omega)
            (by rw [hhr' y (by omega)]; exact hfr.1)
        · rw [h1, Nat.add_sub_cancel, h2]
      · intro u v hadj
        have hadj' : adjIdx (Maze.mk w h sv (wset sh y x false)) u v = true := hadj
        rcases adjIdx_carve_hor u v hadj' with hold | ⟨hu, hv⟩ | ⟨hu, hv⟩
        · exact Or.inl hold
        · refine Or.inr (Or.inr ⟨?_, hv⟩)
          rw [h1, Nat.add_sub_cancel] at hu
          rw [h2]
          exact hu
        · refine Or.inr (Or.inl ⟨hu, ?_⟩)
          rw [h1, Nat.add_sub_cancel] at hv
          rw [h2]
          exact hv

/-- A simple cycle can be rotated to start at any of its cells. -/
theorem cycle_rotate {m : Maze} {C : List Nat} {b : Nat}
    (hc : IsCycle m C) (hb : b ∈ C) : ∃ t, IsCycle m (b :: t) := by
  obtain ⟨A, B, rfl⟩ := List.append_of_mem hb
  cases A with
  | nil => exact ⟨B, by simpa using hc⟩
  | cons a0 A' =>
    obtain ⟨hlen, hnd, hch, lv, hv, hlv, hhv, hlh⟩ := hc
    have hv0 : hv = a0 := by
      rw [List.head?_append_of_ne_nil _ (by simp)] at hhv
      simp only [List.head?_cons, Option.some.injEq] at hhv
      exact hhv.symm
    have hlv' : (b :: B).getLast? = some lv := by
      rw [List.getLast?_append_cons] at hlv
      exact hlv
    rw [List.chain'_append] at hch
    obtain ⟨hchA, hchB, hbr⟩ := hch
    refine ⟨B ++ a0 :: A', ?_, ?_, ?_, ?_⟩
    · simp only [List.length_cons, List.length_append] at hlen ⊢
      omega
    · have hperm : List.Perm ((a0 :: A') ++ b :: B) ((b :: B) ++ (a0 :: A')) :=
        List.perm_append_comm
      exact hperm.nodup hnd
    · show List.Chain' (fun u v => adjIdx m u v = true) ((b :: B) ++ (a0 :: A'))
      rw [List.chain'_append]
      refine ⟨hchB, hchA, ?_⟩
      intro p hp q hq
      have hp' : p = lv := by
        rw [hlv'] at hp
        simp only [Option.mem_def, Option.some.injEq] at hp
        exact hp.symm
      have hq' : q = a0 := by
        simp only [List.head?_cons, Option.mem_def, Option.some.injEq] at hq
        exact hq.symm
      subst hp'
      subst hq'
      rw [← hv0]
      exact hlh
    · have hla : (a0 :: A').getLast? = some ((a0 :: A').getLast (by simp)) :=
        List.getLast?_eq_getLast_of_ne_nil (by simp)
      refine ⟨(a0 :: A').getLast (by simp), b, ?_, rfl, ?_⟩
      · show ((b :: B) ++ (a0 :: A')).getLast? = _
        rw [List.getLast?_append_cons]
        exact hla
      · exact hbr _ hla b rfl

/-- Adding one edge whose second endpoint was isolated cannot create a
simple cycle. -/
theorem cycleFree_carve {m m2 : Maze} {a b : Nat}
    (hsub : ∀ u v, adjIdx m2 u v = true →
      adjIdx m u v = true ∨ (u = a ∧ v = b) ∨ (u = b ∧ v = a))
    (hbfree : ∀ u v, adjIdx m u v = true → u ≠ b ∧ v ≠ b)
    (hab : a ≠ b)
    (hcf : CycleFree m) : CycleFree m2 := by
  rintro ⟨C, hC⟩
  by_cases hbC : b ∈ C
  · obtain ⟨t, ht⟩ := cycle_rotate hC hbC
    obtain ⟨hlen, hnd, hch, lv, hv, hlv, hhv, hlh⟩ := ht
    have hvb : hv = b := by
      simp only [List.head?_cons, Option.some.injEq] at hhv
      exact hhv.symm
    rw [hvb] at hlh
    cases t with
    | nil => simp at hlen
    | cons q t' =>
      have hbq : adjIdx m2 b q = true := (List.chain'_cons.mp hch).1
      have hqa : q = a := by
        rcases hsub _ _ hbq with hold | ⟨e1, e2⟩ | ⟨e1, e2⟩
        · exact absurd rfl (hbfree _ _ hold).1
        · exact absurd e1.symm hab
        · exact e2
      have hlva : lv = a := by
        rcases hsub _ _ hlh with hold | ⟨e1, e2⟩ | ⟨e1, e2⟩
        · exact absurd rfl (hbfree _ _ hold).2
        · exact e1
        · exact absurd e2.symm hab
      cases t' with
      | nil => simp at hlen
      | cons r t2 =>
        have hlv2 : (r :: t2).getLast? = some lv := by
          rw [List.getLast?_cons_cons, List.getLast?_cons_cons] at hlv
          exact hlv
        have hlvmem : lv ∈ r :: t2 := getLast?_mem hlv2
        have hnq : q ∉ r :: t2 := by
          have h2 := hnd
          simp only [List.nodup_cons] at h2
          exact h2.2.1
        rw [hqa] at hnq
        rw [hlva] at hlvmem
        exact hnq hlvmem
  · refine hcf ⟨C, ?_⟩
    obtain ⟨hlen, hnd, hch, lv, hv, hlv, hhv, hlh⟩ := hC
    have htrans : ∀ u v, u ∈ C → v ∈ C → adjIdx m2 u v = true →
        adjIdx m u v = true := by
      intro u v hu hv2 hadj
      rcases hsub _ _ hadj with hold | ⟨e1, e2⟩ | ⟨e1, e2⟩
      · exact hold
      · rw [e2] at hv2
        exact absurd hv2 hbC
      · rw [e1] at hu
        exact absurd hu hbC
    refine ⟨hlen, hnd, ?_, lv, hv, hlv, hhv, ?_⟩
    · rw [List.chain'_iff_get] at hch ⊢
      intro i hi
      exact htrans _ _ (List.get_mem C _ _) (List.get_mem C _ _) (hch i hi)
    · exact htrans _ _ (getLast?_mem hlv) (head?_mem hhv) hlh

/-- The fully-walled initial state has no wall-free adjacency at all. -/
theorem adjIdx_genInit_false (w h : Nat) (u v : Nat) :
    adjIdx (mazeOf w h (genInit (Maze.new w h))) u v = false := by
  cases hx : adjIdx (mazeOf w h (genInit (Maze.new w h))) u v with
  | false => rfl
  | true =>
    rw [adjIdx_iff_cases] at hx
    dsimp only [mazeOf, genInit, Maze.new] at hx
    rcases hx with ⟨-, -, -, c4, -⟩ | ⟨-, -, c4, -⟩ | ⟨-, -, -, c4, -⟩ | ⟨-, -, c4, -⟩ <;>
      rw [wget_replicate_true] at c4 <;>
      exact Bool.noConfusion c4

/-- One generation step preserves the full forest invariant. -/
theorem genStep_invariant {w h : Nat} {dirs : List Dir} {s s2 : GenState}
    (hI : GenDims w h s ∧ StackBnd w h s ∧ StackVis s ∧ EdgesVisited w h s ∧
      CycleFree (mazeOf w h s))
    (hstep : genStep w h dirs s = some s2) :
    GenDims w h s2 ∧ StackBnd w h s2 ∧ StackVis s2 ∧ EdgesVisited w h s2 ∧
      CycleFree (mazeOf w h s2) := by
  obtain ⟨hd, hb, hsv, hev, hcf⟩ := hI
  obtain ⟨hd2, hb2, -⟩ := genStep_preserves hd hb hstep
  have hsv2 := genStep_stackvis hd hsv hstep
  rcases genStep_carve hd hb hsv hstep with ⟨hvv, hhh, hvis⟩ | hcj
  · have hmeq : mazeOf w h s2 = mazeOf w h s := by
      unfold mazeOf
      rw [hvv, hhh]
    refine ⟨hd2, hb2, hsv2, ?_, ?_⟩
    · intro u v hadj
      rw [hmeq] at hadj
      rw [hvis]
      exact hev u v hadj
    · rw [hmeq]
      exact hcf
  · obtain ⟨a, b, halt, hblt, hav, hbv, hvis2, hadjab, hsub⟩ := hcj
    have hw0 : 0 < w := by
      rcases Nat.eq_zero_or_pos w with hz | hp
      · rw [hz] at hblt
        simp at hblt
      · exact hp
    have hdl : s.visited.length = h := hd.1
    have hdr : ∀ y', y' < h → (s.visited.getD y' []).length = w := hd.2.1
    have hby : b / w < s.visited.length := by
      rw [hdl]
      rw [Nat.mul_comm w h] at hblt
      exact (Nat.div_lt_iff_lt_mul hw0).mpr hblt
    have hbx : b % w < (s.visited.getD (b / w) []).length := by
      rw [hdr (b / w) (by rw [← hdl]; exact hby)]
      exact Nat.mod_lt _ hw0
    have hmono : ∀ {yy xx : Nat}, wget s.visited yy xx = true →
        wget s2.visited yy xx = true := by
      intro yy xx hv0
      rw [hvis2]
      exact wget_wset_true_mono hby hbx hv0
    refine ⟨hd2, hb2, hsv2, ?_, ?_⟩
    · intro u v hadj
      rcases hsub u v hadj with hold | ⟨rfl, rfl⟩ | ⟨rfl, rfl⟩
      · obtain ⟨e1, e2⟩ := hev u v hold
        exact ⟨hmono e1, hmono e2⟩
      · refine ⟨hmono hav, ?_⟩
        rw [hvis2]
        exact wget_wset_self true hby hbx
      · refine ⟨?_, hmono hav⟩
        rw [hvis2]
        exact wget_wset_self true hby hbx
    · have hbfree : ∀ u v, adjIdx (mazeOf w h s) u v = true → u ≠ b ∧ v ≠ b := by
        intro u v hold
        obtain ⟨e1, e2⟩ := hev u v hold
        constructor
        · intro he
          rw [he] at e1
          rw [e1] at hbv
          cases hbv
        · intro he
          rw [he] at e2
          rw [e2] at hbv
          cases hbv
      have hab : a ≠ b := by
        intro he
        rw [he] at hav
        rw [hav] at hbv
        cases hbv
      exact cycleFree_carve hsub hbfree hab hcf

/-- Replaying any number of generation steps preserves the forest
invariant. -/
theorem genIter_invariant {w h : Nat} {rs : Nat → List Dir} :
    ∀ (n t : Nat) (s : GenState),
      GenDims w h s ∧ StackBnd w h s ∧ StackVis s ∧ EdgesVisited w h s ∧
        CycleFree (mazeOf w h s) →
      GenDims w h (genIter w h rs n t s) ∧ StackBnd w h (genIter w h rs n t s) ∧
        StackVis (genIter w h rs n t s) ∧ EdgesVisited w h (genIter w h rs n t s) ∧
        CycleFree (mazeOf w h (genIter w h rs n t s)) := by
  intro n
  induction n with
  | zero => intro t s hI; exact hI
  | succ k ih =>
    intro t s hI
    rw [genIter]
    cases hstep : genStep w h (rs t) s with
    | none => exact hI
    | some s2 => exact ih (t + 1) s2 (genStep_invariant hI hstep)

/-- The initial generation state satisfies the forest invariant. -/
theorem genInit_invariant {w h : Nat} (hw : 0 < w) (hh : 0 < h) :
    GenDims w h (genInit (Maze.new w h)) ∧ StackBnd w h (genInit (Maze.new w h)) ∧
      StackVis (genInit (Maze.new w h)) ∧ EdgesVisited w h (genInit (Maze.new w h)) ∧
      CycleFree (mazeOf w h (genInit (Maze.new w h))) := by
  refine ⟨genInit_dims w h, genInit_stackbnd hw hh _, ?_, ?_, ?_⟩
  · intro p hp
    simp only [genInit, List.mem_singleton] at hp
    subst hp
    show wget (genInit (Maze.new w h)).visited 0 0 = true
    simp only [genInit, Maze.new]
    rw [wget_wset_self _ (by simpa using hh)
      (by rw [getD_replicate _ _ hh]; simpa using hw)]
  · intro u v hadj
    rw [adjIdx_genInit_false] at hadj
    cases hadj
  · rintro ⟨C, hC⟩
    obtain ⟨-, -, -, lv, hv, -, -, hlh⟩ := hC
    rw [adjIdx_genInit_false] at hlh
    cases hlh

/-- C10: after every prefix of carving iterations, every removed wall
joins two visited cells and the wall-free graph is acyclic; and the
next step either leaves walls and visited untouched or carves exactly
one wall, joining the current visited cell to a previously unvisited
neighbor that it marks visited in the same step. -/
theorem generate_forest_every_step (w h : Nat) (hw : 0 < w) (hh : 0 < h)
    (rs : Nat → List Dir) (n : Nat) :
    EdgesVisited w h (genIter w h rs n 0 (genInit (Maze.new w h))) ∧
    CycleFree (mazeOf w h (genIter w h rs n 0 (genInit (Maze.new w h)))) ∧
    (∀ dirs s2, genStep w h dirs (genIter w h rs n 0 (genInit (Maze.new w h))) =
        some s2 →
      (s2.vert = (genIter w h rs n 0 (genInit (Maze.new w h))).vert ∧
       s2.hor = (genIter w h rs n 0 (genInit (Maze.new w h))).hor ∧
       s2.visited = (genIter w h rs n 0 (genInit (Maze.new w h))).visited) ∨
      CarveJoin w h (genIter w h rs n 0 (genInit (Maze.new w h))) s2) := by
  obtain ⟨hd, hb, hsv, hev, hcf⟩ := genIter_invariant n 0 _ (genInit_invariant hw hh)
  exact ⟨hev, hcf, fun dirs s2 hstep => genStep_carve hd hb hsv hstep⟩

/-- Witness for the C10 theorem at a concrete size, stream and step
count. -/
theorem generate_forest_every_step_witness :
    EdgesVisited 2 2 (genIter 2 2 (fun _ => [Dir.R, Dir.L, Dir.D, Dir.U]) 3 0
      (genInit (Maze.new 2 2))) ∧
    CycleFree (mazeOf 2 2 (genIter 2 2 (fun _ => [Dir.R, Dir.L, Dir.D, Dir.U]) 3 0
      (genInit (Maze.new 2 2)))) :=
  ⟨(generate_forest_every_step 2 2 (by decide) (by decide)
      (fun _ => [Dir.R, Dir.L, Dir.D, Dir.U]) 3).1,
   (generate_forest_every_step 2 2 (by decide) (by decide)
      (fun _ => [Dir.R, Dir.L, Dir.D, Dir.U]) 3).2.1⟩

end MazeGen
